import Mathlib

/-!
Verification development for the bun-task-runner repository (src/task.ts).

The single source file implements an incremental task runner: dependency
recursion, input fingerprinting (command text + sha256 of each resolved
input file, serialized as a canonical JSON string), a SQLite-backed cache
of (task name, fingerprint) records with per-file output snapshots, and a
hash-gated restore step.  This file gives a shallow embedding of that
program: file systems are association lists from path to bytes, the
database tables are lists of rows in insertion order, the shell is an
explicit function parameter, and general recursion over the (possibly
cyclic) dependency graph is modelled with a fuel parameter.
-/

namespace TaskRunner

/-- Raw file contents: a sequence of byte values. -/
abbrev Bytes := List Nat

/-- Encoding of one byte used by the modelled digest: a unary run of marks
closed by a dot. -/
def encByte : Nat → List Char
  | 0 => ['.']
  | n + 1 => 'x' :: encByte n

/-- Modelled from the spec: the Content Hasher
(`new Bun.CryptoHasher('sha256')` + base64 digest in src/task.ts, an
external Bun primitive).  The spec requires a deterministic,
collision-resistant digest used identically everywhere a hash is persisted
or compared; the model realises collision resistance as actual injectivity
via a plain injective byte encoding. -/
def digest (b : Bytes) : String := ⟨b.flatMap encByte⟩

/-- Decoder inverting the byte encoding of `digest`; used only to prove the
encoding injective. -/
def decBytes : List Char → Option (List Nat)
  | [] => some []
  | c :: r =>
    if c = '.' then (decBytes r).map (fun l => 0 :: l)
    else if c = 'x' then
      match decBytes r with
      | some (n :: l) => some ((n + 1) :: l)
      | _ => none
    else none

theorem decBytes_dot (r : List Char) :
    decBytes ('.' :: r) = (decBytes r).map (fun l => 0 :: l) := by
  rw [decBytes.eq_def]; simp

theorem decBytes_mark (r : List Char) :
    decBytes ('x' :: r) =
      match decBytes r with
      | some (n :: l) => some ((n + 1) :: l)
      | _ => none := by
  rw [decBytes.eq_def]; simp +decide

theorem decBytes_encByte (n : Nat) (rest : List Char) :
    decBytes (encByte n ++ rest) = (decBytes rest).map (fun l => n :: l) := by
  induction n with
  | zero => simpa [encByte] using decBytes_dot rest
  | succ n ih =>
    show decBytes ('x' :: (encByte n ++ rest)) = _
    rw [decBytes_mark, ih]
    cases decBytes rest <;> simp

theorem decBytes_digest (b : Bytes) : decBytes (b.flatMap encByte) = some b := by
  induction b with
  | nil => simp [decBytes]
  | cons n t ih => rw [List.flatMap_cons, decBytes_encByte, ih]; rfl

theorem digest_injective : Function.Injective digest := by
  intro a b h
  have hd : a.flatMap encByte = b.flatMap encByte := congrArg String.data h
  have := decBytes_digest a
  rw [hd, decBytes_digest b] at this
  exact (Option.some.injEq _ _ ▸ this).symm

/-- JSON escaping of one character, as performed by `JSON.stringify` on the
fingerprint object: a quote becomes backslash-quote and a backslash is
doubled.  Control-character escapes are omitted from the model; the two
modelled escapes already make the encoding injective. -/
def escChar (c : Char) : List Char :=
  if c = '"' then ['\\', '"'] else if c = '\\' then ['\\', '\\'] else [c]

/-- JSON escaping of a character sequence. -/
def escL (s : List Char) : List Char := s.flatMap escChar

/-- Rendering of a JSON string literal (opening quote, escaped body,
closing quote). -/
def strLitL (s : String) : List Char := '"' :: escL s.data ++ ['"']

/-- Parser inverting `escL` up to an unescaped closing quote; used only to
prove the rendering injective. -/
def unescape : List Char → Option (List Char × List Char)
  | [] => none
  | c :: r =>
    if c = '"' then some ([], r)
    else if c = '\\' then
      match r with
      | [] => none
      | d :: r2 => (unescape r2).map (fun p => (d :: p.1, p.2))
    else (unescape r).map (fun p => (c :: p.1, p.2))

theorem unescape_quote (r : List Char) : unescape ('"' :: r) = some ([], r) := by
  rw [unescape.eq_def]; simp

theorem unescape_esc (d : Char) (r : List Char) :
    unescape ('\\' :: d :: r) = (unescape r).map (fun p => (d :: p.1, p.2)) := by
  rw [unescape.eq_def]; simp

theorem unescape_plain (c : Char) (r : List Char) (h1 : ¬ c = '"')
    (h2 : ¬ c = '\\') :
    unescape (c :: r) = (unescape r).map (fun p => (c :: p.1, p.2)) := by
  rw [unescape.eq_def]; simp [h1, h2]

theorem unescape_escL (s : List Char) (r : List Char) :
    unescape (escL s ++ '"' :: r) = some (s, r) := by
  induction s with
  | nil => simpa [escL] using unescape_quote r
  | cons c t ih =>
    by_cases h1 : c = '"'
    · subst h1
      show unescape ('\\' :: '"' :: (escL t ++ '"' :: r)) = _
      rw [unescape_esc, ih]; rfl
    · by_cases h2 : c = '\\'
      · subst h2
        show unescape ('\\' :: '\\' :: (escL t ++ '"' :: r)) = _
        rw [unescape_esc, ih]; rfl
      · rw [show escL (c :: t) ++ '"' :: r = escChar c ++ (escL t ++ '"' :: r) by
          simp [escL, List.flatMap_cons, List.append_assoc]]
        rw [escChar, if_neg h1, if_neg h2, List.singleton_append,
          unescape_plain c _ h1 h2, ih]
        rfl

theorem escL_peel {s₁ s₂ r₁ r₂ : List Char}
    (h : escL s₁ ++ '"' :: r₁ = escL s₂ ++ '"' :: r₂) : s₁ = s₂ ∧ r₁ = r₂ := by
  have h1 := unescape_escL s₁ r₁
  rw [h, unescape_escL s₂ r₂] at h1
  have h2 := Option.some.injEq _ _ ▸ h1
  exact ⟨congrArg Prod.fst h2.symm, congrArg Prod.snd h2.symm⟩

theorem string_data_inj {a b : String} (h : a.data = b.data) : a = b := by
  cases a; cases b; cases h; rfl

theorem strLit_peel {a b : String} {r₁ r₂ : List Char}
    (h : strLitL a ++ r₁ = strLitL b ++ r₂) : a = b ∧ r₁ = r₂ := by
  simp only [strLitL, List.cons_append, List.append_assoc,
    List.singleton_append, List.cons.injEq, true_and] at h
  obtain ⟨h1, h2⟩ := escL_peel h
  exact ⟨string_data_inj h1, h2⟩

/-- Rendering of one `path: hash` member of the files object. -/
def entryL (e : String × String) : List Char := strLitL e.1 ++ ':' :: strLitL e.2

/-- Rendering of the members after the first one, each preceded by a comma,
closed by the brace ending the files object. -/
def entriesTail : List (String × String) → List Char
  | [] => ['}']
  | e :: rest => ',' :: (entryL e ++ entriesTail rest)

/-- Rendering of the member list of the files object (without its opening
brace, with its closing brace). -/
def entriesL : List (String × String) → List Char
  | [] => ['}']
  | e :: rest => entryL e ++ entriesTail rest

/-- Character-level rendering of
`JSON.stringify({command: c, files: m})` for a sorted member list `m`,
exactly as built at src/task.ts lines 71-76. -/
def fingerprintL (c : String) (m : List (String × String)) : List Char :=
  '{' :: strLitL "command" ++ [':'] ++ strLitL c ++ [','] ++ strLitL "files"
    ++ [':', '{'] ++ entriesL m ++ ['}']

theorem entry_peel {e₁ e₂ : String × String} {r₁ r₂ : List Char}
    (h : entryL e₁ ++ r₁ = entryL e₂ ++ r₂) : e₁ = e₂ ∧ r₁ = r₂ := by
  simp only [entryL, List.append_assoc, List.cons_append] at h
  obtain ⟨h1, h2⟩ := strLit_peel h
  simp only [List.cons.injEq, true_and] at h2
  obtain ⟨h3, h4⟩ := strLit_peel h2
  exact ⟨Prod.ext h1 h3, h4⟩

theorem entriesL_head_ne (e : String × String) (t : List (String × String))
    (r : List Char) : (entriesL (e :: t) ++ r).head? = some '"' := by
  simp [entriesL, entryL, strLitL]

theorem entriesL_peel {m₁ : List (String × String)} :
    ∀ {m₂ : List (String × String)} {r₁ r₂ : List Char},
    entriesL m₁ ++ r₁ = entriesL m₂ ++ r₂ → m₁ = m₂ ∧ r₁ = r₂ := by
  induction m₁ with
  | nil =>
    intro m₂ r₁ r₂ h
    cases m₂ with
    | nil => simpa [entriesL] using h
    | cons e t =>
      have := entriesL_head_ne e t r₂
      rw [← h] at this
      simp [entriesL] at this
  | cons e₁ t₁ ih =>
    intro m₂ r₁ r₂ h
    cases m₂ with
    | nil =>
      have := entriesL_head_ne e₁ t₁ r₁
      rw [h] at this
      simp [entriesL] at this
    | cons e₂ t₂ =>
      simp only [entriesL, List.append_assoc] at h
      obtain ⟨h1, h2⟩ := entry_peel h
      cases t₁ with
      | nil =>
        cases t₂ with
        | nil =>
          simp only [entriesTail, List.singleton_append, List.cons.injEq] at h2
          exact ⟨by rw [h1], h2.2⟩
        | cons f₂ u₂ => simp [entriesTail] at h2
      | cons f₁ u₁ =>
        cases t₂ with
        | nil => simp [entriesTail] at h2
        | cons f₂ u₂ =>
          simp only [entriesTail, List.cons_append, List.cons.injEq,
            true_and] at h2
          have h3 : entriesL (f₁ :: u₁) ++ r₁ = entriesL (f₂ :: u₂) ++ r₂ := by
            simpa [entriesL, List.append_assoc] using h2
          obtain ⟨h4, h5⟩ := ih h3
          exact ⟨by rw [h1, h4], h5⟩

theorem fingerprintL_inj {c₁ c₂ : String} {m₁ m₂ : List (String × String)}
    (h : fingerprintL c₁ m₁ = fingerprintL c₂ m₂) : c₁ = c₂ ∧ m₁ = m₂ := by
  simp only [fingerprintL, List.cons_append, List.append_assoc,
    List.nil_append, List.cons.injEq, true_and] at h
  obtain ⟨-, h1⟩ := strLit_peel h
  simp only [List.cons.injEq, true_and] at h1
  obtain ⟨hc, h2⟩ := strLit_peel h1
  simp only [List.cons.injEq, true_and] at h2
  obtain ⟨-, h3⟩ := strLit_peel h2
  simp only [List.cons.injEq, true_and] at h3
  obtain ⟨hm, -⟩ := entriesL_peel h3
  exact ⟨hc, hm⟩

/-- Working-tree state: an association list from path to byte content, in
creation order, plus the set of paths on which writes and deletions fail
(modelling per-file I/O errors thrown by `Bun.write` / `unlinkSync`).
Reads succeed exactly on present paths. -/
abbrev FileList := List (String × Bytes)

/-- Reading a file (`Bun.file(path)` in src/task.ts): `none` models a
thrown read error, here arising exactly when the path is absent.  This is
the benign-read idealization; where the distinction between an absent and
an existing-but-unreadable path carries the content of a claim, the
refined read `readF` below, which also fails on present paths, is used
instead. -/
def lookupF (files : FileList) (p : String) : Option Bytes :=
  (files.find? (fun e => e.1 == p)).map (fun e => e.2)

/-- Modelled from the spec: glob matching against a path, covering the `*`
wildcard of `new Glob(pattern)` (a Bun primitive external to src/task.ts).
A star matches any character sequence; other characters match literally. -/
def globMatchL : List Char → List Char → Bool
  | [], s => s.isEmpty
  | '*' :: ps, s => s.tails.any (fun t => globMatchL ps t)
  | p :: ps, s =>
    match s with
    | [] => false
    | c :: cs => p == c && globMatchL ps cs

/-- Glob matching on strings. -/
def globMatch (pat p : String) : Bool := globMatchL pat.data p.data

/-- The wildcard test `pattern.includes('*')` of src/task.ts lines 56 and
86, stated on the character list of the pattern. -/
def hasStar (pat : String) : Bool := pat.data.contains '*'

/-- Pattern resolution (src/task.ts lines 56 and 86): a pattern containing
a star is scanned against the existing files, anything else is taken as
one literal path. -/
def resolvePattern (files : FileList) (pat : String) : List String :=
  if hasStar pat then (files.map Prod.fst).filter (fun p => globMatch pat p)
  else [pat]

/-- One task of the manifest (interface Task, src/task.ts lines 33-39). -/
structure Task where
  command : String
  depends_on : Option (List String) := none
  inputs : Option (List String) := none
  outputs : Option (List String) := none
  cache : Option Bool := none
deriving DecidableEq, Repr

/-- The task graph (interface Scripts): a name-to-task mapping, modelled as
an association list. -/
abbrev Scripts := List (String × Task)

/-- Task lookup `scripts[name]`; `none` models the undefined access. -/
def lookupScript (sc : Scripts) (n : String) : Option Task :=
  (sc.find? (fun e => e.1 == n)).map (fun e => e.2)

/-- Assignment `obj[k] = v` on a JavaScript object modelled as an
association list: an existing key keeps its position and gets the new
value, a new key is appended. -/
def upsert {α : Type} (m : List (String × α)) (k : String) (v : α) :
    List (String × α) :=
  if m.any (fun e => e.1 == k) then
    m.map (fun e => if e.1 = k then (k, v) else e)
  else m ++ [(k, v)]

/-- The object-building loop shared by `hashInputs` and `prepareOutputs`
(src/task.ts lines 54-68 and 84-97): every pattern is resolved, every
resolved path is read, and `onHit`/`onMiss` give the stored value for a
successful or failed read (`none` from `onMiss` models the bare
`console.warn` that stores nothing). -/
def buildStep {α : Type} (read : String → Option Bytes) (onHit : String → Bytes → α)
    (onMiss : String → Option α) (m : List (String × α)) (p : String) :
    List (String × α) :=
  match read p with
  | some c => upsert m p (onHit p c)
  | none =>
    match onMiss p with
    | some v => upsert m p v
    | none => m

/-- The nested pattern/path loops shared by `hashInputs` and
`prepareOutputs`: every pattern is resolved and every resolved path is
processed by `buildStep` into the object being built. -/
def buildMap {α : Type} (files : FileList) (pats : List String)
    (onHit : String → Bytes → α) (onMiss : String → Option α) :
    List (String × α) :=
  pats.foldl (fun m pat =>
    (resolvePattern files pat).foldl (buildStep (lookupF files) onHit onMiss) m) []

/-- Insertion step of the sort at src/task.ts line 74. -/
def insertPair {α : Type} (e : String × α) :
    List (String × α) → List (String × α)
  | [] => [e]
  | f :: t => if e.1.data ≤ f.1.data then e :: f :: t else f :: insertPair e t

/-- Sorting the object entries by key
(`.sort(([a], [b]) => a.localeCompare(b))`); `localeCompare` is modelled by
the lexicographic order on strings, a locale-stable total order as the
spec requires. -/
def sortPairs {α : Type} (m : List (String × α)) : List (String × α) :=
  m.foldr insertPair []

/-- Fingerprint computation (`hashInputs`, src/task.ts lines 49-77): hash
every readable resolved input file, skip unreadable ones with a warning,
sort the path-to-digest mapping by path and serialize it together with the
command into a canonical JSON string. -/
def hashInputs (files : FileList) (task : Task) : String :=
  ⟨fingerprintL task.command
    (sortPairs (buildMap files (task.inputs.getD [])
      (fun _ c => digest c) (fun _ => none)))⟩

/-- Specification-side observation used to state claim C2: the sorted
mapping from readable resolved input path to its raw bytes.  Two
invocations see unchanged command-relevant input data exactly when this
mapping is unchanged. -/
def inputContents (files : FileList) (pats : List String) :
    List (String × Bytes) :=
  sortPairs (buildMap files pats (fun _ c => c) (fun _ => none))

/-- All concrete paths produced by resolving a pattern list. -/
def resolvedAll (files : FileList) (pats : List String) : List String :=
  pats.flatMap (resolvePattern files)

/-- An entry of a built object carries the value its key determines: the
hit value of a readable path or the miss value of an unreadable one. -/
def goodEntry {α : Type} (read : String → Option Bytes) (onHit : String → Bytes → α)
    (onMiss : String → Option α) (e : String × α) : Prop :=
  (∃ c, read e.1 = some c ∧ e.2 = onHit e.1 c) ∨
    (read e.1 = none ∧ onMiss e.1 = some e.2)

theorem upsert_mem {α : Type} {m : List (String × α)} {k : String} {v : α}
    (e : String × α) :
    e ∈ upsert m k v ↔ (e ∈ m ∧ e.1 ≠ k) ∨ e = (k, v) := by
  unfold upsert
  by_cases hk : m.any (fun x => x.1 == k)
  · rw [if_pos hk]
    simp only [List.mem_map]
    constructor
    · rintro ⟨x, hx, rfl⟩
      by_cases h : x.1 = k
      · rw [if_pos h]; exact Or.inr rfl
      · rw [if_neg h]; exact Or.inl ⟨hx, h⟩
    · rintro (⟨he, hne⟩ | rfl)
      · exact ⟨e, he, by rw [if_neg hne]⟩
      · obtain ⟨x, hx, hxk⟩ := List.any_eq_true.mp hk
        exact ⟨x, hx, by rw [if_pos (by simpa using hxk)]⟩
  · rw [if_neg hk]
    have hall : ∀ x ∈ m, ¬ x.1 = k := by
      intro x hx hc
      exact hk (List.any_eq_true.mpr ⟨x, hx, by simpa using hc⟩)
    simp only [List.mem_append, List.mem_singleton]
    constructor
    · rintro (he | rfl)
      · exact Or.inl ⟨he, hall _ he⟩
      · exact Or.inr rfl
    · rintro (⟨he, -⟩ | rfl)
      · exact Or.inl he
      · exact Or.inr rfl

theorem upsert_keys_nodup {α : Type} {m : List (String × α)} {k : String}
    {v : α} (h : (m.map Prod.fst).Nodup) :
    ((upsert m k v).map Prod.fst).Nodup := by
  unfold upsert
  by_cases hk : m.any (fun x => x.1 == k)
  · rw [if_pos hk]
    have heq : (m.map (fun e => if e.1 = k then (k, v) else e)).map Prod.fst
        = m.map Prod.fst := by
      rw [List.map_map]
      apply List.map_congr_left
      intro x hx
      by_cases hxk : x.1 = k
      · simp [hxk]
      · simp [hxk]
    rw [heq]; exact h
  · rw [if_neg hk]
    have hknot : k ∉ m.map Prod.fst := by
      intro hc
      obtain ⟨x, hx, hxk⟩ := List.mem_map.mp hc
      exact hk (List.any_eq_true.mpr ⟨x, hx, by simpa using hxk⟩)
    rw [List.map_append, List.nodup_append]
    refine ⟨h, by simp, ?_⟩
    intro a ha hb
    simp only [List.map_cons, List.map_nil, List.mem_singleton] at hb
    exact hknot (hb ▸ ha)

theorem buildStep_keys_nodup {α : Type} {read : String → Option Bytes}
    {onHit : String → Bytes → α} {onMiss : String → Option α}
    {m : List (String × α)} (p : String)
    (h : (m.map Prod.fst).Nodup) :
    ((buildStep read onHit onMiss m p).map Prod.fst).Nodup := by
  unfold buildStep
  cases read p with
  | some c => exact upsert_keys_nodup h
  | none =>
    cases onMiss p with
    | some v => exact upsert_keys_nodup h
    | none => exact h

theorem buildStep_good {α : Type} {read : String → Option Bytes}
    {onHit : String → Bytes → α} {onMiss : String → Option α}
    {m : List (String × α)} (p : String)
    (h : ∀ x ∈ m, goodEntry read onHit onMiss x) :
    ∀ x ∈ buildStep read onHit onMiss m p, goodEntry read onHit onMiss x := by
  unfold buildStep
  cases hl : read p with
  | some c =>
    intro x hx
    rcases (upsert_mem x).mp hx with ⟨hm, -⟩ | rfl
    · exact h x hm
    · exact Or.inl ⟨c, hl, rfl⟩
  | none =>
    cases ho : onMiss p with
    | some v =>
      intro x hx
      rcases (upsert_mem x).mp hx with ⟨hm, -⟩ | rfl
      · exact h x hm
      · exact Or.inr ⟨hl, ho⟩
    | none => exact h

theorem buildStep_mem {α : Type} {read : String → Option Bytes}
    {onHit : String → Bytes → α} {onMiss : String → Option α}
    {m : List (String × α)} (p : String)
    (hgood : ∀ x ∈ m, goodEntry read onHit onMiss x) (e : String × α) :
    e ∈ buildStep read onHit onMiss m p ↔
      e ∈ m ∨ (e.1 = p ∧ goodEntry read onHit onMiss e) := by
  unfold buildStep
  cases hl : read p with
  | some c =>
    rw [upsert_mem]
    constructor
    · rintro (⟨hm, -⟩ | rfl)
      · exact Or.inl hm
      · exact Or.inr ⟨rfl, Or.inl ⟨c, hl, rfl⟩⟩
    · rintro (hm | ⟨hep, hg⟩)
      · by_cases hep : e.1 = p
        · right
          rcases hgood e hm with ⟨c2, hl2, hv⟩ | ⟨hl2, -⟩
          · rw [hep] at hl2
            rw [hl2] at hl
            obtain rfl := Option.some.injEq _ _ ▸ hl
            exact Prod.ext hep (by rw [hv, hep])
          · rw [hep, hl] at hl2; cases hl2
        · exact Or.inl ⟨hm, hep⟩
      · right
        rcases hg with ⟨c2, hl2, hv⟩ | ⟨hl2, -⟩
        · rw [hep] at hl2
          rw [hl2] at hl
          obtain rfl := Option.some.injEq _ _ ▸ hl
          exact Prod.ext hep (by rw [hv, hep])
        · rw [hep, hl] at hl2; cases hl2
  | none =>
    cases ho : onMiss p with
    | some v =>
      rw [upsert_mem]
      constructor
      · rintro (⟨hm, -⟩ | rfl)
        · exact Or.inl hm
        · exact Or.inr ⟨rfl, Or.inr ⟨hl, ho⟩⟩
      · rintro (hm | ⟨hep, hg⟩)
        · by_cases hep : e.1 = p
          · right
            rcases hgood e hm with ⟨c2, hl2, -⟩ | ⟨-, ho2⟩
            · rw [hep, hl] at hl2; cases hl2
            · rw [hep, ho] at ho2
              obtain rfl := Option.some.injEq _ _ ▸ ho2
              exact Prod.ext hep rfl
          · exact Or.inl ⟨hm, hep⟩
        · rcases hg with ⟨c2, hl2, -⟩ | ⟨-, ho2⟩
          · rw [hep, hl] at hl2; cases hl2
          · rw [hep, ho] at ho2
            obtain rfl := Option.some.injEq _ _ ▸ ho2
            exact Or.inr (Prod.ext hep rfl)
    | none =>
      constructor
      · exact Or.inl
      · rintro (hm | ⟨hep, hg⟩)
        · exact hm
        · rcases hg with ⟨c2, hl2, -⟩ | ⟨-, ho2⟩
          · rw [hep, hl] at hl2; cases hl2
          · rw [hep, ho] at ho2; cases ho2

theorem foldl_buildStep_keys_nodup {α : Type} {read : String → Option Bytes}
    {onHit : String → Bytes → α} {onMiss : String → Option α} :
    ∀ (ps : List String) (m : List (String × α)),
    (m.map Prod.fst).Nodup →
    ((ps.foldl (buildStep read onHit onMiss) m).map Prod.fst).Nodup := by
  intro ps
  induction ps with
  | nil => intro m h; exact h
  | cons p ps ih =>
    intro m h
    exact ih _ (buildStep_keys_nodup p h)

theorem foldl_buildStep_good {α : Type} {read : String → Option Bytes}
    {onHit : String → Bytes → α} {onMiss : String → Option α} :
    ∀ (ps : List String) (m : List (String × α)),
    (∀ x ∈ m, goodEntry read onHit onMiss x) →
    ∀ x ∈ ps.foldl (buildStep read onHit onMiss) m,
      goodEntry read onHit onMiss x := by
  intro ps
  induction ps with
  | nil => intro m h; exact h
  | cons p ps ih =>
    intro m h
    exact ih _ (buildStep_good p h)

theorem foldl_buildStep_mem {α : Type} {read : String → Option Bytes}
    {onHit : String → Bytes → α} {onMiss : String → Option α} :
    ∀ (ps : List String) (m : List (String × α)),
    (∀ x ∈ m, goodEntry read onHit onMiss x) →
    ∀ e, e ∈ ps.foldl (buildStep read onHit onMiss) m ↔
      e ∈ m ∨ (e.1 ∈ ps ∧ goodEntry read onHit onMiss e) := by
  intro ps
  induction ps with
  | nil => intro m _ e; simp
  | cons p ps ih =>
    intro m h e
    rw [List.foldl_cons, ih _ (buildStep_good p h), buildStep_mem p h]
    constructor
    · rintro ((hm | ⟨hep, hg⟩) | ⟨hin, hg⟩)
      · exact Or.inl hm
      · exact Or.inr ⟨by rw [hep]; exact List.mem_cons_self p ps, hg⟩
      · exact Or.inr ⟨List.mem_cons_of_mem p hin, hg⟩
    · rintro (hm | ⟨hin, hg⟩)
      · exact Or.inl (Or.inl hm)
      · rcases List.mem_cons.mp hin with rfl | hin
        · exact Or.inl (Or.inr ⟨rfl, hg⟩)
        · exact Or.inr ⟨hin, hg⟩

theorem foldl_nested_flatMap {α γ : Type} (r : γ → List String)
    (g : List (String × α) → String → List (String × α)) :
    ∀ (pats : List γ) (m : List (String × α)),
    pats.foldl (fun m pat => (r pat).foldl g m) m = (pats.flatMap r).foldl g m := by
  intro pats
  induction pats with
  | nil => intro m; rfl
  | cons p ps ih =>
    intro m
    rw [List.foldl_cons, List.flatMap_cons, List.foldl_append, ih]

theorem buildMap_eq_foldl {α : Type} (files : FileList) (pats : List String)
    (onHit : String → Bytes → α) (onMiss : String → Option α) :
    buildMap files pats onHit onMiss =
      (resolvedAll files pats).foldl (buildStep (lookupF files) onHit onMiss) [] :=
  foldl_nested_flatMap (resolvePattern files) _ pats []

theorem buildMap_mem {α : Type} (files : FileList) (pats : List String)
    (onHit : String → Bytes → α) (onMiss : String → Option α)
    (e : String × α) :
    e ∈ buildMap files pats onHit onMiss ↔
      e.1 ∈ resolvedAll files pats ∧ goodEntry (lookupF files) onHit onMiss e := by
  rw [buildMap_eq_foldl,
    foldl_buildStep_mem (resolvedAll files pats) [] (by simp) e]
  simp

theorem buildMap_keys_nodup {α : Type} (files : FileList) (pats : List String)
    (onHit : String → Bytes → α) (onMiss : String → Option α) :
    ((buildMap files pats onHit onMiss).map Prod.fst).Nodup := by
  rw [buildMap_eq_foldl]
  exact foldl_buildStep_keys_nodup _ [] (by simp)

theorem insertPair_perm {α : Type} (e : String × α) :
    ∀ l : List (String × α), (insertPair e l).Perm (e :: l) := by
  intro l
  induction l with
  | nil => exact List.Perm.refl _
  | cons f t ih =>
    rw [insertPair]
    by_cases h : e.1.data ≤ f.1.data
    · rw [if_pos h]
    · rw [if_neg h]
      exact (ih.cons f).trans (List.Perm.swap e f t)

theorem sortPairs_perm {α : Type} (m : List (String × α)) :
    (sortPairs m).Perm m := by
  induction m with
  | nil => exact List.Perm.refl _
  | cons e t ih =>
    exact (insertPair_perm e _).trans (ih.cons e)

theorem insertPair_pairwise {α : Type} (e : String × α)
    {l : List (String × α)}
    (h : l.Pairwise (fun a b => a.1.data ≤ b.1.data)) :
    (insertPair e l).Pairwise (fun a b => a.1.data ≤ b.1.data) := by
  induction l with
  | nil => simp [insertPair]
  | cons f t ih =>
    rw [insertPair]
    rw [List.pairwise_cons] at h
    by_cases hef : e.1.data ≤ f.1.data
    · rw [if_pos hef]
      refine List.Pairwise.cons ?_ (List.Pairwise.cons h.1 h.2)
      intro b hb
      rcases List.mem_cons.mp hb with rfl | hb
      · exact hef
      · exact le_trans hef (h.1 b hb)
    · rw [if_neg hef]
      refine List.Pairwise.cons ?_ (ih h.2)
      intro b hb
      have := (insertPair_perm e t).mem_iff.mp hb
      rcases List.mem_cons.mp this with rfl | hb2
      · exact le_of_not_le hef
      · exact h.1 b hb2

theorem sortPairs_pairwise {α : Type} (m : List (String × α)) :
    (sortPairs m).Pairwise (fun a b => a.1.data ≤ b.1.data) := by
  induction m with
  | nil => simp [sortPairs]
  | cons e t ih => exact insertPair_pairwise e ih

theorem pairwise_lt_of_le_nodup {α : Type} {l : List (String × α)}
    (hle : l.Pairwise (fun a b => a.1.data ≤ b.1.data))
    (hnd : (l.map Prod.fst).Nodup) :
    l.Pairwise (fun a b => a.1.data < b.1.data) := by
  have hne : l.Pairwise (fun a b => a.1 ≠ b.1) := by
    rw [List.Nodup, List.pairwise_map] at hnd
    exact hnd
  have hne2 : l.Pairwise (fun a b => a.1.data ≠ b.1.data) :=
    hne.imp (fun h hd => h (string_data_inj hd))
  exact (hle.and hne2).imp (fun h => lt_of_le_of_ne h.1 h.2)

theorem sorted_nodup_ext {α : Type} :
    ∀ {l₁ l₂ : List (String × α)},
    l₁.Pairwise (fun a b => a.1.data < b.1.data) →
    l₂.Pairwise (fun a b => a.1.data < b.1.data) →
    (∀ e, e ∈ l₁ ↔ e ∈ l₂) → l₁ = l₂ := by
  intro l₁
  induction l₁ with
  | nil =>
    intro l₂ _ _ hm
    cases l₂ with
    | nil => rfl
    | cons f u => exact absurd ((hm f).mpr (List.mem_cons_self f u)) (by simp)
  | cons e t ih =>
    intro l₂ h₁ h₂ hm
    cases l₂ with
    | nil => exact absurd ((hm e).mp (List.mem_cons_self e t)) (by simp)
    | cons f u =>
      rw [List.pairwise_cons] at h₁ h₂
      have hef : e = f := by
        rcases List.mem_cons.mp ((hm e).mp (List.mem_cons_self e t)) with
          he | he
        · exact he
        · rcases List.mem_cons.mp ((hm f).mpr (List.mem_cons_self f u)) with
            hf | hf
          · exact hf.symm
          · exact absurd (lt_trans (h₂.1 e he) (h₁.1 f hf)) (lt_irrefl _)
      subst hef
      have hmt : ∀ x, x ∈ t ↔ x ∈ u := by
        intro x
        constructor
        · intro hx
          rcases List.mem_cons.mp ((hm x).mp (List.mem_cons_of_mem e hx)) with
            rfl | hxu
          · exact absurd (h₁.1 x hx) (lt_irrefl _)
          · exact hxu
        · intro hx
          rcases List.mem_cons.mp ((hm x).mpr (List.mem_cons_of_mem e hx)) with
            rfl | hxt
          · exact absurd (h₂.1 x hx) (lt_irrefl _)
          · exact hxt
      rw [ih h₁.2 h₂.2 hmt]

theorem sortPairs_keys_nodup {α : Type} {m : List (String × α)}
    (h : (m.map Prod.fst).Nodup) : ((sortPairs m).map Prod.fst).Nodup :=
  (((sortPairs_perm m).map Prod.fst).nodup_iff).mpr h

theorem sortPairs_buildMap_pairwise {α : Type} (files : FileList)
    (pats : List String) (onHit : String → Bytes → α)
    (onMiss : String → Option α) :
    (sortPairs (buildMap files pats onHit onMiss)).Pairwise
      (fun a b => a.1.data < b.1.data) :=
  pairwise_lt_of_le_nodup (sortPairs_pairwise _)
    (sortPairs_keys_nodup (buildMap_keys_nodup files pats onHit onMiss))

theorem sortPairs_buildMap_mem {α : Type} (files : FileList)
    (pats : List String) (onHit : String → Bytes → α)
    (onMiss : String → Option α) (e : String × α) :
    e ∈ sortPairs (buildMap files pats onHit onMiss) ↔
      e.1 ∈ resolvedAll files pats ∧ goodEntry (lookupF files) onHit onMiss e := by
  rw [(sortPairs_perm _).mem_iff, buildMap_mem]

theorem sorted_hash_eq_map_contents (files : FileList) (pats : List String) :
    sortPairs (buildMap files pats (fun _ c => digest c) (fun _ => none)) =
      (inputContents files pats).map (fun e => (e.1, digest e.2)) := by
  apply sorted_nodup_ext (sortPairs_buildMap_pairwise files pats _ _)
  · rw [List.pairwise_map]
    exact sortPairs_buildMap_pairwise files pats _ _
  · intro e
    rw [sortPairs_buildMap_mem, List.mem_map]
    constructor
    · rintro ⟨hres, ⟨c, hl, hv⟩ | ⟨-, hmiss⟩⟩
      · refine ⟨(e.1, c), ?_, ?_⟩
        · rw [inputContents, sortPairs_buildMap_mem]
          exact ⟨hres, Or.inl ⟨c, hl, rfl⟩⟩
        · exact Prod.ext rfl hv.symm
      · cases hmiss
    · rintro ⟨x, hx, rfl⟩
      rw [inputContents, sortPairs_buildMap_mem] at hx
      obtain ⟨hres, ⟨c, hl, hv⟩ | ⟨-, hmiss⟩⟩ := hx
      · exact ⟨hres, Or.inl ⟨c, hl, by rw [hv]⟩⟩
      · cases hmiss

theorem sortPairs_buildMap_congr {α : Type} (files : FileList)
    {pats₁ pats₂ : List String} (hp : pats₁.Perm pats₂)
    (onHit : String → Bytes → α) (onMiss : String → Option α) :
    sortPairs (buildMap files pats₁ onHit onMiss) =
      sortPairs (buildMap files pats₂ onHit onMiss) := by
  apply sorted_nodup_ext (sortPairs_buildMap_pairwise files pats₁ _ _)
    (sortPairs_buildMap_pairwise files pats₂ _ _)
  intro e
  rw [sortPairs_buildMap_mem, sortPairs_buildMap_mem]
  have : e.1 ∈ resolvedAll files pats₁ ↔ e.1 ∈ resolvedAll files pats₂ := by
    rw [resolvedAll, resolvedAll, List.mem_flatMap, List.mem_flatMap]
    constructor
    · rintro ⟨pat, hp1, hpe⟩; exact ⟨pat, hp.mem_iff.mp hp1, hpe⟩
    · rintro ⟨pat, hp1, hpe⟩; exact ⟨pat, hp.mem_iff.mpr hp1, hpe⟩
  rw [this]

/-- C2: two invocations of fingerprint computation produce identical
fingerprint strings if and only if the task's command text and the raw
bytes of every resolved input file are unchanged between the invocations
(the right-hand side packages the resolved readable input files and their
bytes as the sorted path-to-content mapping `inputContents`; in particular
any change to a resolved input file's bytes changes the fingerprint). -/
theorem c2_fingerprint_iff_inputs_unchanged (files₁ files₂ : FileList)
    (t₁ t₂ : Task) :
    hashInputs files₁ t₁ = hashInputs files₂ t₂ ↔
      t₁.command = t₂.command ∧
        inputContents files₁ (t₁.inputs.getD []) =
          inputContents files₂ (t₂.inputs.getD []) := by
  constructor
  · intro h
    have hd := congrArg String.data h
    obtain ⟨hc, hm⟩ := fingerprintL_inj hd
    refine ⟨hc, ?_⟩
    rw [sorted_hash_eq_map_contents, sorted_hash_eq_map_contents] at hm
    have hinj : Function.Injective
        (fun e : String × Bytes => (e.1, digest e.2)) := by
      intro a b hab
      simp only [Prod.mk.injEq] at hab
      exact Prod.ext hab.1 (digest_injective hab.2)
    exact List.map_injective_iff.mpr hinj hm
  · rintro ⟨hc, hm⟩
    apply string_data_inj
    show fingerprintL _ _ = fingerprintL _ _
    rw [hc, sorted_hash_eq_map_contents, sorted_hash_eq_map_contents, hm]

/-- C2 witness: with input pattern `a`, two stores agreeing on the bytes
of `a` but differing elsewhere yield equal fingerprints. -/
theorem c2_witness :
    hashInputs [("a", [1, 2]), ("b", [3])] { command := "c", inputs := some ["a"] }
      = hashInputs [("a", [1, 2]), ("b", [4])] { command := "c", inputs := some ["a"] } :=
  (c2_fingerprint_iff_inputs_unchanged _ _ _ _).mpr (by decide)

/-- C9: fingerprint computation is deterministic (it is a pure function of
the store and the task) and its result is independent of the order in
which patterns are listed in the task's inputs. -/
theorem c9_fingerprint_order_independent (files : FileList) (t₁ t₂ : Task)
    (hc : t₁.command = t₂.command)
    (hp : (t₁.inputs.getD []).Perm (t₂.inputs.getD [])) :
    hashInputs files t₁ = hashInputs files t₂ := by
  apply string_data_inj
  show fingerprintL _ _ = fingerprintL _ _
  rw [hc, sortPairs_buildMap_congr files hp]

/-- C9 witness: listing the same two input files in either order gives the
same fingerprint string. -/
theorem c9_witness :
    hashInputs [("a", [1]), ("b", [2])] { command := "c", inputs := some ["b", "a"] }
      = hashInputs [("a", [1]), ("b", [2])] { command := "c", inputs := some ["a", "b"] } :=
  c9_fingerprint_order_independent _ _ _ rfl (List.Perm.swap "a" "b" [])

/-- Output capture (`prepareOutputs`, src/task.ts lines 79-100): resolve
every output pattern, read each resolved path, store its bytes on success
and an explicit null on a failed read. -/
def prepareOutputs (files : FileList) (task : Task) :
    List (String × Option Bytes) :=
  buildMap files (task.outputs.getD []) (fun _ c => some c) (fun _ => some none)

/-- One row of the task_cache table (src/task.ts lines 12-20); the
`randomUUIDv7` identifier is modelled as a number drawn from a counter. -/
structure CacheRow where
  id : Nat
  task_name : String
  inputs : String
  stdout : String
deriving DecidableEq, Repr

/-- One row of the task_output table (src/task.ts lines 22-31). -/
structure OutputRow where
  task_id : Nat
  path : String
  hash : Option String
  content : Option Bytes
deriving DecidableEq, Repr

/-- The two tables of the SQLite store, rows in insertion order. -/
structure Db where
  cacheRows : List CacheRow
  outputRows : List OutputRow
deriving DecidableEq, Repr

/-- One committed INSERT statement: with WAL journalling and no explicit
transaction, each `db.run` call commits durably on its own. -/
inductive DbOp where
  | insertCache (row : CacheRow)
  | insertOutput (row : OutputRow)
deriving DecidableEq, Repr

def applyDb (db : Db) : DbOp → Db
  | .insertCache r => { db with cacheRows := db.cacheRows ++ [r] }
  | .insertOutput r => { db with outputRows := db.outputRows ++ [r] }

/-- The task_output rows built from captured outputs (src/task.ts lines
170-182): the stored hash is the digest of the content when the content is
not null, and null otherwise. -/
def snapRows (tid : Nat) (outs : List (String × Option Bytes)) :
    List OutputRow :=
  outs.map (fun e =>
    { task_id := tid, path := e.1, hash := e.2.map digest, content := e.2 })

/-- The INSERT sequence a cache-miss run issues (src/task.ts lines
161-182): first the task_cache row, then one task_output row per captured
output. -/
def persistSeq (files1 : FileList) (task : Task) (name fp out : String)
    (tid : Nat) : List DbOp :=
  DbOp.insertCache { id := tid, task_name := name, inputs := fp, stdout := out }
    :: (snapRows tid (prepareOutputs files1 task)).map DbOp.insertOutput

/-- Cache lookup (src/task.ts lines 134-141):
`SELECT * FROM task_cache WHERE task_name = ? AND inputs = ?` with `.get`,
returning the first matching row in rowid order. -/
def findRecord (rows : List CacheRow) (name fp : String) : Option CacheRow :=
  rows.find? (fun r => r.task_name == name && r.inputs == fp)

/-- Snapshot query of the restorer (src/task.ts lines 222-228):
`SELECT * FROM task_output WHERE task_id = ?` with `.all`. -/
def outputsFor (rows : List OutputRow) (tid : Nat) : List OutputRow :=
  rows.filter (fun r => r.task_id == tid)

/-- Deleting a path from the working tree (`unlinkSync`). -/
def removeF (files : FileList) (p : String) : FileList :=
  files.filter (fun e => !(e.1 == p))

/-- Writing a file (`Bun.write`): overwrite in place or append. -/
def writeF (files : FileList) (p : String) (c : Bytes) : FileList :=
  upsert files p c

/-- Result of a restore pass: the final working tree, the number of
`Bun.write` calls performed, the number of snapshot rows handled through
the null-clearing branch, and whether an uncaught write error aborted the
pass. -/
structure RestoreOut where
  files : FileList
  writes : Nat
  deletes : Nat
  failed : Bool
deriving DecidableEq, Repr

/-- Restoration (`restoreFromCache`, src/task.ts lines 220-251): for each
snapshot row, a null hash or content clears the path (a failed or
no-op `unlinkSync` is caught and only warned about), otherwise the path is
rewritten unless the digest of its current bytes already equals the stored
hash.  A failing `Bun.write` is NOT wrapped in try/catch in the source, so
it aborts the pass: `failed` is set and the remaining rows are not
processed. -/
def restoreFromCache (ro : List String) :
    List OutputRow → FileList → RestoreOut
  | [], fs => ⟨fs, 0, 0, false⟩
  | row :: rest, fs =>
    match row.hash, row.content with
    | some h, some c =>
      if (lookupF fs row.path).map digest = some h then
        restoreFromCache ro rest fs
      else if row.path ∈ ro then ⟨fs, 0, 0, true⟩
      else
        let out := restoreFromCache ro rest (writeF fs row.path c)
        { out with writes := out.writes + 1 }
    | _, _ =>
      let fs2 :=
        if row.path ∈ ro ∨ lookupF fs row.path = none then fs
        else removeF fs row.path
      let out := restoreFromCache ro rest fs2
      { out with deletes := out.deletes + 1 }

/-- The shell, an external collaborator: a command maps the working tree to
captured stdout and a new working tree. -/
abbrev Exec := String → FileList → String × FileList

/-- The whole mutable state an engine run touches: the working tree (with
its failing-path set, which no engine step changes), the two store tables,
the identifier counter, the stdout lines echoed to the console, and a
ghost log of the (task name, command) pairs actually handed to the
shell. -/
structure World where
  files : FileList
  readOnly : List String
  cacheRows : List CacheRow
  outputRows : List OutputRow
  nextId : Nat
  emitted : List String
  execLog : List (String × String)
deriving DecidableEq, Repr

/-- A fatal outcome of a run: the undefined-access crash on an unknown
task name, an uncaught restore write error, or exhaustion of the fuel that
models the unbounded dependency recursion of the source. -/
inductive RunError where
  | unknownTask (name : String)
  | restoreFailed (name : String)
  | outOfFuel
deriving DecidableEq, Repr

/-- The per-task body of `runTask` (src/task.ts lines 130-186), after the
dependency loop: fingerprint, cache lookup, then either restore-and-echo
the stored stdout, or execute the command and, when caching is enabled
(`task.cache ?? true`), persist the record and its snapshots. -/
def runCore (exec : Exec) (name : String) (task : Task) (w : World) :
    World × Option RunError :=
  let fp := hashInputs w.files task
  match findRecord w.cacheRows name fp with
  | some row =>
    let out := restoreFromCache w.readOnly (outputsFor w.outputRows row.id)
      w.files
    if out.failed then
      ({ w with files := out.files }, some (RunError.restoreFailed name))
    else
      ({ w with files := out.files, emitted := w.emitted ++ [row.stdout] },
        none)
  | none =>
    let res := exec task.command w.files
    let w1 := { w with
      files := res.2
      execLog := w.execLog ++ [(name, task.command)] }
    if task.cache.getD true then
      let db := (persistSeq res.2 task name fp res.1 w.nextId).foldl applyDb
        ⟨w1.cacheRows, w1.outputRows⟩
      ({ w1 with
        cacheRows := db.cacheRows
        outputRows := db.outputRows
        nextId := w.nextId + 1 }, none)
    else (w1, none)

/-- The recursive engine (`runTask`, src/task.ts lines 122-128) on a work
list: look the task up (an unknown name crashes before any step for that
task), run its dependencies in order, run its own body, continue.  The
fuel argument makes the possibly non-terminating recursion of the source a
total function; a cyclic graph exhausts any finite fuel. -/
def runMany (exec : Exec) (sc : Scripts) :
    Nat → World → List String → World × Option RunError
  | _, w, [] => (w, none)
  | fuel, w, name :: rest =>
    match lookupScript sc name with
    | none => (w, some (RunError.unknownTask name))
    | some task =>
      match fuel with
      | 0 => (w, some RunError.outOfFuel)
      | f + 1 =>
        match runMany exec sc f w (task.depends_on.getD []) with
        | (w2, some e) => (w2, some e)
        | (w2, none) =>
          match runCore exec name task w2 with
          | (w3, some e) => (w3, some e)
          | (w3, none) => runMany exec sc f w3 rest

/-- Entry point: `await runTask(scripts, script_name)`. -/
def runTask (exec : Exec) (sc : Scripts) (fuel : Nat) (w : World)
    (name : String) : World × Option RunError :=
  runMany exec sc fuel w [name]

theorem runMany_nil (exec : Exec) (sc : Scripts) (fuel : Nat) (w : World) :
    runMany exec sc fuel w [] = (w, none) := by
  rw [runMany.eq_def]

theorem runMany_cons_unknown (exec : Exec) (sc : Scripts) (fuel : Nat)
    (w : World) {name : String} (rest : List String)
    (h : lookupScript sc name = none) :
    runMany exec sc fuel w (name :: rest) =
      (w, some (RunError.unknownTask name)) := by
  rw [runMany.eq_def]
  simp only [h]

theorem runMany_cons_zero (exec : Exec) (sc : Scripts) (w : World)
    {name : String} (rest : List String) {task : Task}
    (h : lookupScript sc name = some task) :
    runMany exec sc 0 w (name :: rest) = (w, some RunError.outOfFuel) := by
  rw [runMany.eq_def]
  simp only [h]

theorem runMany_cons_succ (exec : Exec) (sc : Scripts) (f : Nat) (w : World)
    {name : String} (rest : List String) {task : Task}
    (h : lookupScript sc name = some task) :
    runMany exec sc (f + 1) w (name :: rest) =
      match runMany exec sc f w (task.depends_on.getD []) with
      | (w2, some e) => (w2, some e)
      | (w2, none) =>
        match runCore exec name task w2 with
        | (w3, some e) => (w3, some e)
        | (w3, none) => runMany exec sc f w3 rest := by
  rw [runMany.eq_def]
  simp only [h]

/-- Reachability through the static dependency graph: the names whose
`runTask` frame the engine can enter while processing a work list. -/
inductive Reaches (sc : Scripts) : List String → String → Prop
  | head {ns : List String} {n : String} : n ∈ ns → Reaches sc ns n
  | step {ns : List String} {n d : String} {task : Task} : d ∈ ns →
      lookupScript sc d = some task →
      Reaches sc (task.depends_on.getD []) n → Reaches sc ns n

theorem Reaches_mono {sc : Scripts} {ns ns2 : List String} {n : String}
    (hsub : ∀ x ∈ ns, x ∈ ns2) (h : Reaches sc ns n) : Reaches sc ns2 n := by
  induction h with
  | head hm => exact Reaches.head (hsub _ hm)
  | step hd hl _ ih => exact Reaches.step (hsub _ hd) hl (by assumption)

theorem foldl_insertOutput (rows : List OutputRow) :
    ∀ db : Db, (rows.map DbOp.insertOutput).foldl applyDb db =
      ⟨db.cacheRows, db.outputRows ++ rows⟩ := by
  induction rows with
  | nil => intro db; simp
  | cons r rest ih =>
    intro db
    rw [List.map_cons, List.foldl_cons, ih]
    simp [applyDb]

theorem persist_fold (files1 : FileList) (task : Task) (name fp out : String)
    (tid : Nat) (cr : List CacheRow) (our : List OutputRow) :
    (persistSeq files1 task name fp out tid).foldl applyDb ⟨cr, our⟩ =
      ⟨cr ++ [{ id := tid, task_name := name, inputs := fp, stdout := out }],
        our ++ snapRows tid (prepareOutputs files1 task)⟩ := by
  rw [persistSeq, List.foldl_cons, foldl_insertOutput]
  rfl

theorem runCore_hit {exec : Exec} {name : String} {task : Task} {w : World}
    {row : CacheRow}
    (h : findRecord w.cacheRows name (hashInputs w.files task) = some row) :
    runCore exec name task w =
      (if (restoreFromCache w.readOnly (outputsFor w.outputRows row.id)
            w.files).failed then
        ({ w with files := (restoreFromCache w.readOnly
            (outputsFor w.outputRows row.id) w.files).files },
          some (RunError.restoreFailed name))
      else
        ({ w with
            files := (restoreFromCache w.readOnly
              (outputsFor w.outputRows row.id) w.files).files
            emitted := w.emitted ++ [row.stdout] }, none)) := by
  simp only [runCore, h]

theorem runCore_miss_cached {exec : Exec} {name : String} {task : Task}
    {w : World}
    (h : findRecord w.cacheRows name (hashInputs w.files task) = none)
    (hc : task.cache.getD true = true) :
    runCore exec name task w =
      ({ w with
          files := (exec task.command w.files).2
          execLog := w.execLog ++ [(name, task.command)]
          cacheRows := w.cacheRows ++ [{
            id := w.nextId
            task_name := name
            inputs := hashInputs w.files task
            stdout := (exec task.command w.files).1 }]
          outputRows := w.outputRows ++ snapRows w.nextId
            (prepareOutputs (exec task.command w.files).2 task)
          nextId := w.nextId + 1 }, none) := by
  simp [runCore, h, hc, persist_fold]

theorem runCore_miss_uncached {exec : Exec} {name : String} {task : Task}
    {w : World}
    (h : findRecord w.cacheRows name (hashInputs w.files task) = none)
    (hc : task.cache.getD true = false) :
    runCore exec name task w =
      ({ w with
          files := (exec task.command w.files).2
          execLog := w.execLog ++ [(name, task.command)] }, none) := by
  simp [runCore, h, hc]

theorem runCore_delta (exec : Exec) (name : String) (task : Task) (w : World) :
    ∃ de dc, (runCore exec name task w).1.execLog = w.execLog ++ de ∧
      (runCore exec name task w).1.cacheRows = w.cacheRows ++ dc ∧
      (∀ x ∈ de, x.1 = name) ∧ (∀ r ∈ dc, r.task_name = name) := by
  cases hfr : findRecord w.cacheRows name (hashInputs w.files task) with
  | some row =>
    rw [runCore_hit hfr]
    by_cases hf : (restoreFromCache w.readOnly (outputsFor w.outputRows row.id)
        w.files).failed
    · rw [if_pos hf]
      exact ⟨[], [], by simp, by simp,
        fun x hx => absurd hx (List.not_mem_nil x),
        fun r hr => absurd hr (List.not_mem_nil r)⟩
    · rw [if_neg hf]
      exact ⟨[], [], by simp, by simp,
        fun x hx => absurd hx (List.not_mem_nil x),
        fun r hr => absurd hr (List.not_mem_nil r)⟩
  | none =>
    cases hc : task.cache.getD true with
    | true =>
      rw [runCore_miss_cached hfr hc]
      refine ⟨[(name, task.command)],
        [⟨w.nextId, name, hashInputs w.files task, (exec task.command w.files).1⟩],
        by simp, by simp, ?_, ?_⟩
      · intro x hx
        rw [List.mem_singleton] at hx
        rw [hx]
      · intro r hr
        rw [List.mem_singleton] at hr
        rw [hr]
    | false =>
      rw [runCore_miss_uncached hfr hc]
      refine ⟨[(name, task.command)], [], by simp, by simp, ?_, by simp⟩
      intro x hx
      rw [List.mem_singleton] at hx
      rw [hx]

theorem Reaches_nil {sc : Scripts} {n : String} (h : Reaches sc [] n) :
    False := by
  cases h with
  | head hm => exact absurd hm (List.not_mem_nil n)
  | step hd _ _ => exact absurd hd (List.not_mem_nil _)

/-- Every shell execution and every cache-record insert performed by a run
belongs to a task name reachable from the work list through the static
dependency graph. -/
theorem runMany_delta (exec : Exec) (sc : Scripts) :
    ∀ (fuel : Nat) (ns : List String) (w : World),
    ∃ de dc, (runMany exec sc fuel w ns).1.execLog = w.execLog ++ de ∧
      (runMany exec sc fuel w ns).1.cacheRows = w.cacheRows ++ dc ∧
      (∀ x ∈ de, Reaches sc ns x.1) ∧
      (∀ r ∈ dc, Reaches sc ns r.task_name) := by
  intro fuel
  induction fuel with
  | zero =>
    intro ns w
    cases ns with
    | nil =>
      rw [runMany_nil]
      exact ⟨[], [], by simp, by simp,
        fun x hx => absurd hx (List.not_mem_nil x),
        fun r hr => absurd hr (List.not_mem_nil r)⟩
    | cons n rest =>
      cases hl : lookupScript sc n with
      | none =>
        rw [runMany_cons_unknown exec sc 0 w rest hl]
        exact ⟨[], [], by simp, by simp,
          fun x hx => absurd hx (List.not_mem_nil x),
          fun r hr => absurd hr (List.not_mem_nil r)⟩
      | some task =>
        rw [runMany_cons_zero exec sc w rest hl]
        exact ⟨[], [], by simp, by simp,
          fun x hx => absurd hx (List.not_mem_nil x),
          fun r hr => absurd hr (List.not_mem_nil r)⟩
  | succ f ih =>
    intro ns w
    cases ns with
    | nil =>
      rw [runMany_nil]
      exact ⟨[], [], by simp, by simp,
        fun x hx => absurd hx (List.not_mem_nil x),
        fun r hr => absurd hr (List.not_mem_nil r)⟩
    | cons n rest =>
      cases hl : lookupScript sc n with
      | none =>
        rw [runMany_cons_unknown exec sc (f + 1) w rest hl]
        exact ⟨[], [], by simp, by simp,
          fun x hx => absurd hx (List.not_mem_nil x),
          fun r hr => absurd hr (List.not_mem_nil r)⟩
      | some task =>
        rw [runMany_cons_succ exec sc f w rest hl]
        obtain ⟨de₁, dc₁, h1e, h1c, h1er, h1cr⟩ :=
          ih (task.depends_on.getD []) w
        have liftdep : ∀ m : String, Reaches sc (task.depends_on.getD []) m →
            Reaches sc (n :: rest) m :=
          fun m hm => Reaches.step (List.mem_cons_self n rest) hl hm
        have liftrest : ∀ m : String, Reaches sc rest m →
            Reaches sc (n :: rest) m :=
          fun m hm => Reaches_mono (fun x hx => List.mem_cons_of_mem n hx) hm
        cases hdeps : runMany exec sc f w (task.depends_on.getD []) with
        | mk w2 e2 =>
          rw [hdeps] at h1e h1c
          cases e2 with
          | some err =>
            dsimp only at h1e h1c ⊢
            exact ⟨de₁, dc₁, h1e, h1c,
              fun x hx => liftdep _ (h1er x hx),
              fun r hr => liftdep _ (h1cr r hr)⟩
          | none =>
            obtain ⟨de₂, dc₂, h2e, h2c, h2er, h2cr⟩ :=
              runCore_delta exec n task w2
            cases hcore : runCore exec n task w2 with
            | mk w3 e3 =>
              rw [hcore] at h2e h2c
              dsimp only at h1e h1c h2e h2c
              cases e3 with
              | some err =>
                dsimp only
                rw [hcore]
                dsimp only
                refine ⟨de₁ ++ de₂, dc₁ ++ dc₂, ?_, ?_, ?_, ?_⟩
                · rw [h2e, h1e, List.append_assoc]
                · rw [h2c, h1c, List.append_assoc]
                · intro x hx
                  rcases List.mem_append.mp hx with hx | hx
                  · exact liftdep _ (h1er x hx)
                  · exact Reaches.head (by rw [h2er x hx]; exact List.mem_cons_self n rest)
                · intro r hr
                  rcases List.mem_append.mp hr with hr | hr
                  · exact liftdep _ (h1cr r hr)
                  · exact Reaches.head (by rw [h2cr r hr]; exact List.mem_cons_self n rest)
              | none =>
                dsimp only
                rw [hcore]
                dsimp only
                obtain ⟨de₃, dc₃, h3e, h3c, h3er, h3cr⟩ := ih rest w3
                refine ⟨de₁ ++ de₂ ++ de₃, dc₁ ++ dc₂ ++ dc₃, ?_, ?_, ?_, ?_⟩
                · rw [h3e, h2e, h1e, List.append_assoc, List.append_assoc,
                    List.append_assoc]
                · rw [h3c, h2c, h1c, List.append_assoc, List.append_assoc,
                    List.append_assoc]
                · intro x hx
                  rcases List.mem_append.mp hx with hx | hx
                  · rcases List.mem_append.mp hx with hx | hx
                    · exact liftdep _ (h1er x hx)
                    · exact Reaches.head
                        (by rw [h2er x hx]; exact List.mem_cons_self n rest)
                  · exact liftrest _ (h3er x hx)
                · intro r hr
                  rcases List.mem_append.mp hr with hr | hr
                  · rcases List.mem_append.mp hr with hr | hr
                    · exact liftdep _ (h1cr r hr)
                    · exact Reaches.head
                        (by rw [h2cr r hr]; exact List.mem_cons_self n rest)
                  · exact liftrest _ (h3cr r hr)

/-- A task reachable from its own dependency list makes every run that
reaches it diverge: modelled with fuel, no amount of fuel lets such a run
finish without an error. -/
theorem no_self_reach (exec : Exec) (sc : Scripts) {name : String}
    {task : Task} (hname : lookupScript sc name = some task)
    (hreach : Reaches sc (task.depends_on.getD []) name) :
    ∀ (fuel : Nat) (ns : List String) (w : World), Reaches sc ns name →
    (runMany exec sc fuel w ns).2 ≠ none := by
  intro fuel
  induction fuel with
  | zero =>
    intro ns w hr
    cases ns with
    | nil => exact absurd hr Reaches_nil
    | cons n rest =>
      cases hl : lookupScript sc n with
      | none => rw [runMany_cons_unknown exec sc 0 w rest hl]; simp
      | some t => rw [runMany_cons_zero exec sc w rest hl]; simp
  | succ f ih =>
    intro ns w hr
    cases ns with
    | nil => exact absurd hr Reaches_nil
    | cons n rest =>
      cases hl : lookupScript sc n with
      | none => rw [runMany_cons_unknown exec sc (f + 1) w rest hl]; simp
      | some t =>
        rw [runMany_cons_succ exec sc f w rest hl]
        cases hdeps : runMany exec sc f w (t.depends_on.getD []) with
        | mk w2 e2 =>
          cases e2 with
          | some err => simp
          | none =>
            dsimp only
            cases hcore : runCore exec n t w2 with
            | mk w3 e3 =>
              cases e3 with
              | some err => simp
              | none =>
                dsimp only
                cases hr with
                | head hm =>
                  rcases List.mem_cons.mp hm with rfl | hm2
                  · rw [hname] at hl
                    obtain rfl := Option.some.injEq _ _ ▸ hl
                    exact absurd (congrArg Prod.snd hdeps)
                      (ih _ w hreach)
                  · exact ih rest w3 (Reaches.head hm2)
                | step hd hl2 hr2 =>
                  rcases List.mem_cons.mp hd with rfl | hd2
                  · rw [hl] at hl2
                    obtain rfl := Option.some.injEq _ _ ▸ hl2
                    exact absurd (congrArg Prod.snd hdeps)
                      (ih _ w hr2)
                  · exact ih rest w3 (Reaches.step hd2 hl2 hr2)

theorem lookupF_cons (e : String × Bytes) (fs : FileList) (q : String) :
    lookupF (e :: fs) q = if e.1 = q then some e.2 else lookupF fs q := by
  by_cases h : e.1 = q
  · simp [lookupF, List.find?_cons, h]
  · simp [lookupF, List.find?_cons, h]

theorem lookupF_mapUpsert (fs : FileList) (p : String) (c : Bytes)
    (q : String) :
    lookupF (fs.map (fun e => if e.1 = p then (p, c) else e)) q =
      if q = p then (lookupF fs p).map (fun _ => c) else lookupF fs q := by
  induction fs with
  | nil => by_cases h : q = p <;> simp [lookupF, h]
  | cons e fs ih =>
    rw [List.map_cons]
    by_cases he : e.1 = p
    · by_cases hq : q = p
      · subst hq
        simp [he, lookupF_cons, ih]
      · have hpq : ¬ p = q := fun h => hq h.symm
        simp [he, lookupF_cons, ih, hq, hpq]
    · by_cases hq : q = p
      · subst hq
        simp [he, lookupF_cons, ih]
      · by_cases heq : e.1 = q
        · simp [he, heq, lookupF_cons, ih, hq]
        · simp [he, heq, lookupF_cons, ih, hq]

theorem lookupF_of_any {fs : FileList} {p : String}
    (h : fs.any (fun e => e.1 == p)) : (lookupF fs p).isSome := by
  induction fs with
  | nil => simp at h
  | cons e fs ih =>
    rw [lookupF_cons]
    by_cases he : e.1 = p
    · rw [if_pos he]; rfl
    · rw [if_neg he]
      rw [List.any_cons] at h
      rcases Bool.or_eq_true_iff.mp h with h1 | h2
      · exact absurd (by simpa using h1) he
      · exact ih h2

theorem lookupF_none_of_not_any {fs : FileList} {p : String}
    (h : ¬ fs.any (fun e => e.1 == p)) : lookupF fs p = none := by
  induction fs with
  | nil => rfl
  | cons e fs ih =>
    rw [List.any_cons] at h
    rw [lookupF_cons, if_neg (fun hc => h (by simp [hc]))]
    exact ih (fun hc => h (by simp [hc]))

theorem lookupF_append_single (fs : FileList) (p : String) (c : Bytes)
    (q : String) :
    lookupF (fs ++ [(p, c)]) q =
      if (lookupF fs q).isSome then lookupF fs q
      else if q = p then some c else none := by
  induction fs with
  | nil =>
    rw [List.nil_append]
    by_cases h : q = p
    · subst h; simp [lookupF]
    · have hpq : ¬ p = q := fun hc => h hc.symm
      simp [lookupF, h, hpq]
  | cons e fs ih =>
    rw [List.cons_append, lookupF_cons, lookupF_cons]
    by_cases he : e.1 = q
    · rw [if_pos he, if_pos he]; rfl
    · rw [if_neg he, if_neg he, ih]

theorem lookupF_upsert (fs : FileList) (p : String) (c : Bytes) (q : String) :
    lookupF (upsert fs p c) q = if q = p then some c else lookupF fs q := by
  unfold upsert
  by_cases hk : fs.any (fun e => e.1 == p)
  · rw [if_pos hk, lookupF_mapUpsert]
    by_cases hq : q = p
    · rw [if_pos hq, if_pos hq]
      obtain ⟨b, hb⟩ := Option.isSome_iff_exists.mp (lookupF_of_any hk)
      rw [hb]; rfl
    · rw [if_neg hq, if_neg hq]
  · rw [if_neg hk, lookupF_append_single]
    by_cases hq : q = p
    · subst hq
      rw [lookupF_none_of_not_any hk]
      simp
    · rw [if_neg hq]
      cases hl : lookupF fs q with
      | none => simp [hq]
      | some b => simp [hq]

theorem lookupF_removeF (fs : FileList) (p q : String) :
    lookupF (removeF fs p) q = if q = p then none else lookupF fs q := by
  induction fs with
  | nil => by_cases h : q = p <;> simp [lookupF, removeF, h]
  | cons e fs ih =>
    rw [removeF, List.filter_cons]
    by_cases he : e.1 = p
    · rw [if_neg (by simp [he])]
      rw [show List.filter (fun e => !(e.1 == p)) fs = removeF fs p from rfl, ih]
      by_cases hq : q = p
      · rw [if_pos hq, if_pos hq]
      · rw [if_neg hq, if_neg hq, lookupF_cons,
          if_neg (by rw [he]; exact fun hc => hq hc.symm)]
    · rw [if_pos (by simp [he])]
      rw [lookupF_cons, lookupF_cons,
        show List.filter (fun e => !(e.1 == p)) fs = removeF fs p from rfl, ih]
      by_cases heq : e.1 = q
      · rw [if_pos heq, if_pos heq, if_neg (fun hc : q = p => he (heq ▸ hc))]
      · rw [if_neg heq, if_neg heq]

theorem restore_nil (ro : List String) (fs : FileList) :
    restoreFromCache ro [] fs = ⟨fs, 0, 0, false⟩ := by
  rw [restoreFromCache.eq_def]

theorem restore_cons_some (ro : List String) (row : OutputRow)
    (rest : List OutputRow) (fs : FileList) {h : String} {c : Bytes}
    (hh : row.hash = some h) (hc : row.content = some c) :
    restoreFromCache ro (row :: rest) fs =
      if (lookupF fs row.path).map digest = some h then
        restoreFromCache ro rest fs
      else if row.path ∈ ro then ⟨fs, 0, 0, true⟩
      else
        { restoreFromCache ro rest (writeF fs row.path c) with
          writes := (restoreFromCache ro rest (writeF fs row.path c)).writes
            + 1 } := by
  rw [restoreFromCache.eq_def]
  simp only [hh, hc]

theorem restore_cons_null (ro : List String) (row : OutputRow)
    (rest : List OutputRow) (fs : FileList)
    (hn : row.hash = none ∨ row.content = none) :
    restoreFromCache ro (row :: rest) fs =
      { restoreFromCache ro rest
          (if row.path ∈ ro ∨ lookupF fs row.path = none then fs
            else removeF fs row.path) with
        deletes := (restoreFromCache ro rest
          (if row.path ∈ ro ∨ lookupF fs row.path = none then fs
            else removeF fs row.path)).deletes + 1 } := by
  rw [restoreFromCache.eq_def]
  rcases hn with hn | hn
  · cases hc : row.content with
    | none => simp only [hn, hc]
    | some c => simp only [hn, hc]
  · cases hhh : row.hash with
    | none => simp only [hn, hhh]
    | some h => simp only [hn, hhh]

/-- State of one snapshot row already reconciled with the working tree: a
content row sits at its recorded bytes, a null row is either deleted or
undeletable. -/
def restoredRow (ro : List String) (files : FileList) (r : OutputRow) :
    Prop :=
  match r.hash, r.content with
  | some _, some c => lookupF files r.path = some c
  | _, _ => r.path ∈ ro ∨ lookupF files r.path = none

theorem restore_untouched (ro : List String) :
    ∀ (rows : List OutputRow) (fs : FileList) (q : String),
    (∀ r ∈ rows, r.path ≠ q) →
    lookupF (restoreFromCache ro rows fs).files q = lookupF fs q := by
  intro rows
  induction rows with
  | nil => intro fs q _; rw [restore_nil]
  | cons row rest ih =>
    intro fs q hne
    have hq : row.path ≠ q := hne row (List.mem_cons_self row rest)
    have hrest : ∀ r ∈ rest, r.path ≠ q :=
      fun r hr => hne r (List.mem_cons_of_mem row hr)
    cases hh : row.hash with
    | some h =>
      cases hc : row.content with
      | some c =>
        rw [restore_cons_some ro row rest fs hh hc]
        by_cases hskip : (lookupF fs row.path).map digest = some h
        · rw [if_pos hskip]; exact ih fs q hrest
        · rw [if_neg hskip]
          by_cases hro : row.path ∈ ro
          · rw [if_pos hro]
          · rw [if_neg hro]
            show lookupF (restoreFromCache ro rest (writeF fs row.path c)).files q
              = lookupF fs q
            rw [ih _ q hrest, writeF, lookupF_upsert,
              if_neg (fun hc2 => hq hc2.symm)]
      | none =>
        rw [restore_cons_null ro row rest fs (Or.inr hc)]
        show lookupF (restoreFromCache ro rest _).files q = _
        rw [ih _ q hrest]
        by_cases hcl : row.path ∈ ro ∨ lookupF fs row.path = none
        · rw [if_pos hcl]
        · rw [if_neg hcl, lookupF_removeF, if_neg (fun hc2 => hq hc2.symm)]
    | none =>
      rw [restore_cons_null ro row rest fs (Or.inl hh)]
      show lookupF (restoreFromCache ro rest _).files q = _
      rw [ih _ q hrest]
      by_cases hcl : row.path ∈ ro ∨ lookupF fs row.path = none
      · rw [if_pos hcl]
      · rw [if_neg hcl, lookupF_removeF, if_neg (fun hc2 => hq hc2.symm)]

theorem restore_result_state (ro : List String) :
    ∀ (rows : List OutputRow) (fs : FileList),
    (rows.map (fun r => r.path)).Nodup →
    (∀ r ∈ rows, r.hash = r.content.map digest) →
    (restoreFromCache ro rows fs).failed = false →
    ∀ r ∈ rows, restoredRow ro (restoreFromCache ro rows fs).files r := by
  intro rows
  induction rows with
  | nil => intro fs _ _ _ r hr; exact absurd hr (List.not_mem_nil r)
  | cons row rest ih =>
    intro fs hnd hcons hfail
    rw [List.map_cons, List.nodup_cons] at hnd
    have hne : ∀ r ∈ rest, r.path ≠ row.path := by
      intro r hr hc
      exact hnd.1 (hc ▸ List.mem_map_of_mem (fun r => r.path) hr)
    have hconsr : ∀ r ∈ rest, r.hash = r.content.map digest :=
      fun r hr => hcons r (List.mem_cons_of_mem row hr)
    cases hh : row.hash with
    | some h =>
      cases hc : row.content with
      | none =>
        exfalso
        have := hcons row (List.mem_cons_self row rest)
        rw [hh, hc] at this
        cases this
      | some c =>
        have hdig : h = digest c := by
          have := hcons row (List.mem_cons_self row rest)
          rw [hh, hc] at this
          exact Option.some.injEq _ _ ▸ this
        rw [restore_cons_some ro row rest fs hh hc] at hfail ⊢
        by_cases hskip : (lookupF fs row.path).map digest = some h
        · rw [if_pos hskip] at hfail ⊢
          intro r hr
          rcases List.mem_cons.mp hr with rfl | hr2
          · show restoredRow ro (restoreFromCache ro rest fs).files r
            rw [restoredRow, hh, hc]
            cases hcur : lookupF fs r.path with
            | none => rw [hcur] at hskip; cases hskip
            | some cur =>
              rw [hcur] at hskip
              have : digest cur = h := Option.some.injEq _ _ ▸ hskip
              have hcc : cur = c := digest_injective (by rw [this, hdig])
              rw [restore_untouched ro rest fs r.path hne, hcur, hcc]
          · exact ih fs hnd.2 hconsr hfail r hr2
        · rw [if_neg hskip] at hfail ⊢
          by_cases hro : row.path ∈ ro
          · rw [if_pos hro] at hfail
            cases hfail
          · rw [if_neg hro] at hfail ⊢
            have hfail2 : (restoreFromCache ro rest
                (writeF fs row.path c)).failed = false := hfail
            intro r hr
            rcases List.mem_cons.mp hr with rfl | hr2
            · show restoredRow ro
                (restoreFromCache ro rest (writeF fs r.path c)).files r
              rw [restoredRow, hh, hc]
              dsimp only
              rw [restore_untouched ro rest _ r.path hne, writeF,
                lookupF_upsert, if_pos rfl]
            · exact ih _ hnd.2 hconsr hfail2 r hr2
    | none =>
      rw [restore_cons_null ro row rest fs (Or.inl hh)] at hfail ⊢
      have hfail2 : (restoreFromCache ro rest
          (if row.path ∈ ro ∨ lookupF fs row.path = none then fs
            else removeF fs row.path)).failed = false := hfail
      intro r hr
      rcases List.mem_cons.mp hr with rfl | hr2
      · show restoredRow ro (restoreFromCache ro rest _).files r
        rw [restoredRow, hh]
        dsimp only
        by_cases hro : r.path ∈ ro
        · exact Or.inl hro
        · right
          rw [restore_untouched ro rest _ r.path hne]
          by_cases habs : lookupF fs r.path = none
          · rw [if_pos (Or.inr habs)]
            exact habs
          · rw [if_neg (by rw [not_or]; exact ⟨hro, habs⟩), lookupF_removeF,
              if_pos rfl]
      · exact ih _ hnd.2 hconsr hfail2 r hr2

theorem restore_already_matched (ro : List String) :
    ∀ (rows : List OutputRow) (fs : FileList),
    (∀ r ∈ rows, r.hash = r.content.map digest) →
    (∀ r ∈ rows, restoredRow ro fs r) →
    (restoreFromCache ro rows fs).files = fs ∧
    (restoreFromCache ro rows fs).writes = 0 ∧
    (restoreFromCache ro rows fs).failed = false := by
  intro rows
  induction rows with
  | nil => intro fs _ _; rw [restore_nil]; exact ⟨rfl, rfl, rfl⟩
  | cons row rest ih =>
    intro fs hcons hmatch
    have hconsr : ∀ r ∈ rest, r.hash = r.content.map digest :=
      fun r hr => hcons r (List.mem_cons_of_mem row hr)
    have hmatchr : ∀ r ∈ rest, restoredRow ro fs r :=
      fun r hr => hmatch r (List.mem_cons_of_mem row hr)
    have hrow := hmatch row (List.mem_cons_self row rest)
    cases hh : row.hash with
    | some h =>
      cases hc : row.content with
      | none =>
        exfalso
        have := hcons row (List.mem_cons_self row rest)
        rw [hh, hc] at this
        cases this
      | some c =>
        have hdig : h = digest c := by
          have := hcons row (List.mem_cons_self row rest)
          rw [hh, hc] at this
          exact Option.some.injEq _ _ ▸ this
        rw [restoredRow, hh, hc] at hrow
        rw [restore_cons_some ro row rest fs hh hc,
          if_pos (by rw [hrow, hdig]; rfl)]
        exact ih fs hconsr hmatchr
    | none =>
      rw [restoredRow, hh] at hrow
      rw [restore_cons_null ro row rest fs (Or.inl hh)]
      have hcond : row.path ∈ ro ∨ lookupF fs row.path = none := hrow
      rw [if_pos hcond]
      obtain ⟨h1, h2, h3⟩ := ih fs hconsr hmatchr
      exact ⟨h1, h2, h3⟩

/-- Rows produced by output capture are well formed: the stored hash is
the digest of the stored content and the paths are pairwise distinct, as
the task_output primary key (task_id, path) demands. -/
theorem snapRows_wellformed (files : FileList) (task : Task) (tid : Nat) :
    (∀ r ∈ snapRows tid (prepareOutputs files task),
      r.hash = r.content.map digest) ∧
    ((snapRows tid (prepareOutputs files task)).map
      (fun r => r.path)).Nodup := by
  constructor
  · intro r hr
    obtain ⟨e, -, rfl⟩ := List.mem_map.mp hr
    rfl
  · have : (snapRows tid (prepareOutputs files task)).map (fun r => r.path)
        = (prepareOutputs files task).map Prod.fst := by
      rw [snapRows, List.map_map]
      exact List.map_congr_left (fun e _ => rfl)
    rw [this]
    exact buildMap_keys_nodup files _ _ _

/-- C4: restoration is idempotent.  For well-formed snapshot rows (stored
hash equal to the digest of the stored content, pairwise distinct paths,
exactly what the store holds for a record) whose first restore pass
completes without an uncaught write error, restoring again yields the same
final working tree and the second pass performs zero `Bun.write` calls,
because every compared current-content hash already equals the stored
hash. -/
theorem c4_restore_idempotent (ro : List String) (rows : List OutputRow)
    (fs : FileList)
    (hnd : (rows.map (fun r => r.path)).Nodup)
    (hcons : ∀ r ∈ rows, r.hash = r.content.map digest)
    (hok : (restoreFromCache ro rows fs).failed = false) :
    (restoreFromCache ro rows (restoreFromCache ro rows fs).files).files =
      (restoreFromCache ro rows fs).files ∧
    (restoreFromCache ro rows (restoreFromCache ro rows fs).files).writes
      = 0 ∧
    (restoreFromCache ro rows (restoreFromCache ro rows fs).files).failed
      = false :=
  restore_already_matched ro rows (restoreFromCache ro rows fs).files hcons
    (restore_result_state ro rows fs hnd hcons hok)

/-- C4 witness: one content row and one null row, restored twice starting
from a tree that initially disagrees on both paths; the second pass leaves
the tree unchanged and performs zero writes. -/
theorem c4_witness :
    (restoreFromCache []
        [⟨1, "a", some (digest [7]), some [7]⟩, ⟨1, "b", none, none⟩]
        (restoreFromCache []
          [⟨1, "a", some (digest [7]), some [7]⟩, ⟨1, "b", none, none⟩]
          [("b", [9])]).files).files =
      (restoreFromCache []
        [⟨1, "a", some (digest [7]), some [7]⟩, ⟨1, "b", none, none⟩]
        [("b", [9])]).files ∧
    (restoreFromCache []
        [⟨1, "a", some (digest [7]), some [7]⟩, ⟨1, "b", none, none⟩]
        (restoreFromCache []
          [⟨1, "a", some (digest [7]), some [7]⟩, ⟨1, "b", none, none⟩]
          [("b", [9])]).files).writes = 0 :=
  ⟨(c4_restore_idempotent []
      [⟨1, "a", some (digest [7]), some [7]⟩, ⟨1, "b", none, none⟩]
      [("b", [9])] (by decide) (by decide) (by decide)).1,
    (c4_restore_idempotent []
      [⟨1, "a", some (digest [7]), some [7]⟩, ⟨1, "b", none, none⟩]
      [("b", [9])] (by decide) (by decide) (by decide)).2.1⟩

/-- C5 counterexample: claim C5 states that a failure to write one output
file during restore is non-fatal and restoration continues with the
remaining snapshots.  In the source, `unlinkSync` is wrapped in try/catch
but `Bun.write` is not, so a failing write rejects the whole restore.
With path a unwritable, the pass aborts with the failure flag set and the
remaining snapshot b is never written, although the same rows restore b
when nothing fails. -/
theorem c5_counterexample :
    (restoreFromCache ["a"]
      [⟨1, "a", some (digest [1]), some [1]⟩,
        ⟨1, "b", some (digest [2]), some [2]⟩] []).failed = true ∧
    lookupF (restoreFromCache ["a"]
      [⟨1, "a", some (digest [1]), some [1]⟩,
        ⟨1, "b", some (digest [2]), some [2]⟩] []).files "b" = none ∧
    lookupF (restoreFromCache []
      [⟨1, "a", some (digest [1]), some [1]⟩,
        ⟨1, "b", some (digest [2]), some [2]⟩] []).files "b" = some [2] := by
  refine ⟨rfl, rfl, ?_⟩
  decide

/-- C5 amended: during restoration a failure to DELETE an output path is
non-fatal per file (it is caught, logged as a warning, and restoration
continues with the remaining snapshots); only an uncaught WRITE failure
can abort the pass, so whenever every content-carrying row targets a
writable path the pass completes, no matter how many deletions fail. -/
theorem c5_delete_failures_nonfatal (ro : List String) :
    ∀ (rows : List OutputRow) (fs : FileList),
    (∀ r ∈ rows, r.content ≠ none → r.path ∉ ro) →
    (restoreFromCache ro rows fs).failed = false := by
  intro rows
  induction rows with
  | nil => intro fs _; rw [restore_nil]
  | cons row rest ih =>
    intro fs hw
    have hwr : ∀ r ∈ rest, r.content ≠ none → r.path ∉ ro :=
      fun r hr => hw r (List.mem_cons_of_mem row hr)
    cases hh : row.hash with
    | some h =>
      cases hc : row.content with
      | none =>
        rw [restore_cons_null ro row rest fs (Or.inr hc)]
        exact ih _ hwr
      | some c =>
        rw [restore_cons_some ro row rest fs hh hc]
        by_cases hskip : (lookupF fs row.path).map digest = some h
        · rw [if_pos hskip]; exact ih fs hwr
        · rw [if_neg hskip,
            if_neg (hw row (List.mem_cons_self row rest) (by rw [hc]; simp))]
          exact ih _ hwr
    | none =>
      rw [restore_cons_null ro row rest fs (Or.inl hh)]
      exact ih _ hwr

/-- C5 amended witness: a null snapshot row whose deletion fails (its path
is undeletable) does not abort the pass. -/
theorem c5_witness :
    (restoreFromCache ["d"] [⟨1, "d", none, none⟩] [("d", [5])]).failed
      = false :=
  c5_delete_failures_nonfatal ["d"] [⟨1, "d", none, none⟩] [("d", [5])]
    (by decide)

theorem restore_no_null_no_deletes (ro : List String) :
    ∀ (rows : List OutputRow) (fs : FileList),
    (∀ r ∈ rows, r.hash ≠ none ∧ r.content ≠ none) →
    (restoreFromCache ro rows fs).deletes = 0 := by
  intro rows
  induction rows with
  | nil => intro fs _; rw [restore_nil]
  | cons row rest ih =>
    intro fs hnn
    obtain ⟨hh0, hc0⟩ := hnn row (List.mem_cons_self row rest)
    have hnnr : ∀ r ∈ rest, r.hash ≠ none ∧ r.content ≠ none :=
      fun r hr => hnn r (List.mem_cons_of_mem row hr)
    cases hh : row.hash with
    | none => exact absurd hh hh0
    | some h =>
      cases hc : row.content with
      | none => exact absurd hc hc0
      | some c =>
        rw [restore_cons_some ro row rest fs hh hc]
        by_cases hskip : (lookupF fs row.path).map digest = some h
        · rw [if_pos hskip]; exact ih fs hnnr
        · rw [if_neg hskip]
          by_cases hro : row.path ∈ ro
          · rw [if_pos hro]
          · rw [if_neg hro]
            exact ih _ hnnr

theorem mem_keys_lookupF_isSome {files : FileList} {p : String}
    (h : p ∈ files.map Prod.fst) : lookupF files p ≠ none := by
  induction files with
  | nil => simp at h
  | cons e fs ih =>
    rw [lookupF_cons]
    rw [List.map_cons, List.mem_cons] at h
    rcases h with he | he
    · rw [if_pos he.symm]; exact Option.noConfusion
    · by_cases hq : e.1 = p
      · rw [if_pos hq]; exact Option.noConfusion
      · rw [if_neg hq]; exact ih he

/-- Reading a file in the refined model in which a PRESENT path may also
fail to read: `unreadable` holds the paths that exist in the tree but
whose read throws, e.g. for lack of read permission.  The catch blocks at
src/task.ts lines 59-66 and 89-95 fire for any thrown read, not only for
an absent file, so this refinement is what those lines actually handle. -/
def readF (unreadable : List String) (files : FileList) (p : String) :
    Option Bytes :=
  if p ∈ unreadable then none else lookupF files p

/-- Output capture over the refined read (`prepareOutputs`, src/task.ts
lines 79-100): glob scanning lists matching present paths regardless of
their readability (directory listing needs no read permission on the file
itself), and the catch stores an explicit null for ANY failed read, so an
existing-but-unreadable file matched by a glob also yields an absence
snapshot. -/
def prepareOutputsR (unreadable : List String) (files : FileList)
    (task : Task) : List (String × Option Bytes) :=
  (task.outputs.getD []).foldl (fun m pat =>
    (resolvePattern files pat).foldl
      (buildStep (readF unreadable files) (fun _ c => some c)
        (fun _ => some none)) m) []

/-- With nothing unreadable, the refined capture coincides with
`prepareOutputs`: the refinement strictly generalizes the benign-read
model. -/
theorem prepareOutputsR_no_unreadable (files : FileList) (task : Task) :
    prepareOutputsR [] files task = prepareOutputs files task := by
  have h : readF [] files = lookupF files := funext fun p => by simp [readF]
  rw [prepareOutputsR, h, prepareOutputs, buildMap]

theorem prepareOutputsR_mem (unreadable : List String) (files : FileList)
    (task : Task) (e : String × Option Bytes) :
    e ∈ prepareOutputsR unreadable files task ↔
      e.1 ∈ resolvedAll files (task.outputs.getD []) ∧
        goodEntry (readF unreadable files) (fun _ c => some c)
          (fun _ => some none) e := by
  rw [prepareOutputsR,
    foldl_nested_flatMap (resolvePattern files) _ (task.outputs.getD []) [],
    ← resolvedAll,
    foldl_buildStep_mem (resolvedAll files (task.outputs.getD [])) []
      (by simp) e]
  simp

/-- C10 counterexample: the claim says an absence (null) snapshot can only
come from a literal non-wildcard pattern, so that a task whose outputs are
all glob patterns never records one and restoring its record never
deletes.  With the single glob output pattern star and a tree holding one
existing but unreadable file s, capture records an absence entry for the
glob-matched path, and restoring the resulting record unlinks s: the
clearing branch runs once and the file is gone. -/
theorem c10_counterexample :
    ("s", (none : Option Bytes)) ∈ prepareOutputsR ["s"] [("s", [1])]
      { command := "c", outputs := some ["*"] } ∧
    hasStar "*" = true ∧
    (restoreFromCache [] (snapRows 1 (prepareOutputsR ["s"] [("s", [1])]
      { command := "c", outputs := some ["*"] })) [("s", [1])]).deletes
      = 1 ∧
    lookupF (restoreFromCache [] (snapRows 1 (prepareOutputsR ["s"]
      [("s", [1])] { command := "c", outputs := some ["*"] }))
      [("s", [1])]).files "s" = none := by
  refine ⟨?_, rfl, ?_, ?_⟩ <;> decide

/-- C10 amended: output capture records an absence entry exactly for a
resolved output path whose read fails — either a literal non-wildcard
pattern naming an absent or unreadable path, or a glob-matched file that
exists at capture time but is unreadable; when every resolved output path
is readable at capture time no snapshot is null, and restoring the record
performs no deletion. -/
theorem c10_absence_iff_read_fails (unreadable : List String)
    (files : FileList) (task : Task) :
    (∀ p, (p, (none : Option Bytes)) ∈ prepareOutputsR unreadable files task →
      readF unreadable files p = none ∧
        ((p ∈ task.outputs.getD [] ∧ hasStar p = false) ∨
          (p ∈ files.map Prod.fst ∧ p ∈ unreadable))) ∧
    ((∀ pat ∈ task.outputs.getD [], ∀ p ∈ resolvePattern files pat,
        readF unreadable files p ≠ none) →
      (∀ e ∈ prepareOutputsR unreadable files task, e.2 ≠ none) ∧
      ∀ (ro : List String) (fs : FileList) (tid : Nat),
        (restoreFromCache ro (snapRows tid
          (prepareOutputsR unreadable files task)) fs).deletes = 0) := by
  have habs : ∀ p, (p, (none : Option Bytes)) ∈
      prepareOutputsR unreadable files task →
      readF unreadable files p = none ∧
        ((p ∈ task.outputs.getD [] ∧ hasStar p = false) ∨
          (p ∈ files.map Prod.fst ∧ p ∈ unreadable)) := by
    intro p hp
    obtain ⟨hres, hgood⟩ := (prepareOutputsR_mem unreadable files task _).mp hp
    have hread : readF unreadable files p = none := by
      rcases hgood with ⟨c, -, hv⟩ | ⟨hl, -⟩
      · cases hv
      · exact hl
    refine ⟨hread, ?_⟩
    obtain ⟨pat, hpat, hmem⟩ := List.mem_flatMap.mp hres
    rw [resolvePattern] at hmem
    by_cases hstar : hasStar pat
    · rw [if_pos hstar] at hmem
      right
      have hkeys := List.mem_of_mem_filter hmem
      refine ⟨hkeys, ?_⟩
      by_cases hu : p ∈ unreadable
      · exact hu
      · exfalso
        rw [readF, if_neg hu] at hread
        exact mem_keys_lookupF_isSome hkeys hread
    · rw [if_neg hstar] at hmem
      obtain rfl := List.mem_singleton.mp hmem
      exact Or.inl ⟨hpat, Bool.not_eq_true _ ▸ hstar⟩
  refine ⟨habs, fun hall => ⟨?_, ?_⟩⟩
  · rintro ⟨p, v⟩ he hv
    subst hv
    obtain ⟨hres, -⟩ := (prepareOutputsR_mem unreadable files task _).mp he
    obtain ⟨pat, hpat, hmem⟩ := List.mem_flatMap.mp hres
    exact hall pat hpat p hmem (habs p he).1
  · intro ro fs tid
    apply restore_no_null_no_deletes
    intro r hr
    obtain ⟨e, he, rfl⟩ := List.mem_map.mp hr
    cases hv : e.2 with
    | none =>
      exfalso
      have he2 : (e.1, (none : Option Bytes)) ∈
          prepareOutputsR unreadable files task := by
        have : e = (e.1, (none : Option Bytes)) := Prod.ext rfl hv
        exact this ▸ he
      obtain ⟨hres, -⟩ :=
        (prepareOutputsR_mem unreadable files task _).mp he2
      obtain ⟨pat, hpat, hmem⟩ := List.mem_flatMap.mp hres
      exact hall pat hpat e.1 hmem (habs e.1 he2).1
    | some c =>
      exact ⟨by simp, by simp⟩

/-- C10 amended witness: with the glob output pattern star over a tree
whose one file is readable, every snapshot carries content and restoring
the record performs no deletion. -/
theorem c10_witness :
    (restoreFromCache [] (snapRows 1 (prepareOutputsR [] [("o", [3])]
      { command := "c", outputs := some ["*"] })) []).deletes = 0 :=
  ((c10_absence_iff_read_fails [] [("o", [3])]
    { command := "c", outputs := some ["*"] }).2 (by decide)).2 [] [] 1

/-- C7: a requested or depended-upon task name absent from the graph kills
the run before anything is attempted for that task: the returned world is
exactly the incoming one (no fingerprinting, no cache lookup, no command
execution, no store change), the error is the unknown-task failure, and
the short-circuiting of the work list makes it fatal for the whole
invocation.  In the source this is the top-level not-found check for the
requested name and the crash of `task.depends_on` on undefined for a
dependency name. -/
theorem c7_unknown_task_aborts (exec : Exec) (sc : Scripts) (fuel : Nat)
    (w : World) (name : String) (rest : List String)
    (h : lookupScript sc name = none) :
    runMany exec sc fuel w (name :: rest) =
      (w, some (RunError.unknownTask name)) :=
  runMany_cons_unknown exec sc fuel w rest h

/-- C7 witness: running a task against the empty graph aborts with the
unknown-task error and an untouched world. -/
theorem c7_witness :
    runTask (fun _ fs => ("", fs)) [] 5 ⟨[], [], [], [], 0, [], []⟩ "t" =
      (⟨[], [], [], [], 0, [], []⟩,
        some (RunError.unknownTask "t")) :=
  c7_unknown_task_aborts (fun _ fs => ("", fs)) [] 5
    ⟨[], [], [], [], 0, [], []⟩ "t" [] (by decide)

/-- C8: for a task whose cache flag is false, a cache-miss run executes
the command but leaves the cache store unchanged: the resulting world
differs from the incoming one only in the working tree and the shell log,
so no task_cache row and no task_output row is inserted; since lookups for
this task only ever consult rows it would itself have inserted, every
future invocation with the same fingerprint misses again and re-executes
(this same theorem applies at the later world). -/
theorem c8_cache_disabled_no_rows (exec : Exec) (name : String) (task : Task)
    (w : World) (hc : task.cache = some false)
    (hmiss : findRecord w.cacheRows name (hashInputs w.files task) = none) :
    runCore exec name task w =
      ({ w with
          files := (exec task.command w.files).2
          execLog := w.execLog ++ [(name, task.command)] }, none) :=
  runCore_miss_uncached hmiss (by rw [hc]; rfl)

/-- C8 witness: an uncached task on an empty store executes and inserts
nothing. -/
theorem c8_witness :
    runCore (fun _ fs => ("out", fs)) "t" { command := "c", cache := some false }
        ⟨[], [], [], [], 0, [], []⟩ =
      (⟨[], [], [], [], 0, [], [("t", "c")]⟩, none) :=
  c8_cache_disabled_no_rows (fun _ fs => ("out", fs)) "t"
    { command := "c", cache := some false } ⟨[], [], [], [], 0, [], []⟩
    rfl (by decide)

/-- C6 counterexample: the claim states that within one invocation no task
is processed more than once.  The source keeps no DONE set, so in the
diamond graph D -> B, C -> A with caching disabled on A, running D
executes the shared dependency A twice (its runTask frame is entered once
per occurrence in the dependency closure). -/
theorem c6_counterexample :
    ¬ (((runMany (fun _ fs => ("", fs))
        [("A", { command := "a", cache := some false }),
         ("B", { command := "b", depends_on := some ["A"] }),
         ("C", { command := "c", depends_on := some ["A"] }),
         ("D", { command := "d", depends_on := some ["B", "C"] })]
        4 ⟨[], [], [], [], 0, [], []⟩ ["D"]).1.execLog.filter
          (fun e => e.1 == "A")).length ≤ 1) := by
  decide

/-- C6 amended: the engine re-enters a task once per occurrence of its
name in the dependency closure (no DONE state exists); however a re-entry
whose (name, fingerprint) pair already has a cache record is a cache hit
and does not hand the command to the shell. -/
theorem c6_reentry_with_record_no_exec (exec : Exec) (name : String)
    (task : Task) (w : World) (row : CacheRow)
    (h : findRecord w.cacheRows name (hashInputs w.files task) = some row) :
    (runCore exec name task w).1.execLog = w.execLog := by
  rw [runCore_hit h]
  by_cases hf : (restoreFromCache w.readOnly (outputsFor w.outputRows row.id)
      w.files).failed
  · rw [if_pos hf]
  · rw [if_neg hf]

/-- C6 amended witness: a re-entered task whose fingerprint already has a
record leaves the shell log untouched. -/
theorem c6_witness :
    (runCore (fun _ fs => ("", fs)) "t" { command := "c" }
      ⟨[], [], [⟨5, "t", hashInputs [] { command := "c" }, "out"⟩], [],
        6, [], [("x", "y")]⟩).1.execLog = [("x", "y")] :=
  c6_reentry_with_record_no_exec (fun _ fs => ("", fs)) "t" { command := "c" }
    ⟨[], [], [⟨5, "t", hashInputs [] { command := "c" }, "out"⟩], [],
      6, [], [("x", "y")]⟩
    ⟨5, "t", hashInputs [] { command := "c" }, "out"⟩ (by decide)

/-- C3 demonstration of the failing invariant: the task_cache INSERT and
the task_output INSERTs are separate implicitly-committed statements (no
transaction), so the store can be observed (by the next invocation of the
process after a kill between the two statements) holding the CacheRecord
row while its snapshot rows are missing, and the record is already
hit-eligible: the lookup returns it even though the full persist sequence
would have stored a snapshot. -/
theorem c3_partial_record_hit_eligible :
    (findRecord (Db.cacheRows (List.foldl applyDb ⟨[], []⟩
      ((persistSeq [("o", [1])] { command := "c", outputs := some ["o"] }
        "t" "f" "out" 1).take 1))) "t" "f").isSome = true ∧
    outputsFor (Db.outputRows (List.foldl applyDb ⟨[], []⟩
      ((persistSeq [("o", [1])] { command := "c", outputs := some ["o"] }
        "t" "f" "out" 1).take 1))) 1 = [] ∧
    outputsFor (Db.outputRows (List.foldl applyDb ⟨[], []⟩
      (persistSeq [("o", [1])] { command := "c", outputs := some ["o"] }
        "t" "f" "out" 1))) 1 = [⟨1, "o", some (digest [1]), some [1]⟩] := by
  refine ⟨rfl, rfl, ?_⟩
  decide

/-- C1: running a cache-enabled task twice in succession with unchanged
command text and unchanged input file contents executes its shell command
exactly once.  The first run (whose own lookup misses) executes and
persists a record; the second run, whose dependency phase leaves the
fingerprint unchanged (the unchanged-inputs hypothesis hfp), finds that
record, restores its snapshots, emits its stored stdout as this run's
output, and does not hand the command to the shell again. -/
theorem c1_second_run_cached (exec : Exec) (sc : Scripts) (name : String)
    (task : Task) (f g : Nat) (w0 w0d w1 w1d w2 : World)
    (hlook : lookupScript sc name = some task)
    (hcache : task.cache.getD true = true)
    (hd1 : runMany exec sc f w0 (task.depends_on.getD []) = (w0d, none))
    (hmiss : findRecord w0d.cacheRows name (hashInputs w0d.files task) = none)
    (hrun1 : runMany exec sc (f + 1) w0 [name] = (w1, none))
    (hd2 : runMany exec sc g w1 (task.depends_on.getD []) = (w1d, none))
    (hfp : hashInputs w1d.files task = hashInputs w0d.files task)
    (hrun2 : runMany exec sc (g + 1) w1 [name] = (w2, none)) :
    ((w2.execLog.filter (fun e => e.1 == name)).length =
      (w0.execLog.filter (fun e => e.1 == name)).length + 1) ∧
    findRecord w1d.cacheRows name (hashInputs w1d.files task) =
      some ⟨w0d.nextId, name, hashInputs w0d.files task,
        (exec task.command w0d.files).1⟩ ∧
    w2.emitted = w1d.emitted ++ [(exec task.command w0d.files).1] ∧
    w2.files = (restoreFromCache w1d.readOnly
      (outputsFor w1d.outputRows w0d.nextId) w1d.files).files := by
  have hnr : ¬ Reaches sc (task.depends_on.getD []) name := by
    intro hre
    exact no_self_reach exec sc hlook hre f (task.depends_on.getD []) w0 hre
      (by rw [hd1])
  rw [runMany_cons_succ exec sc f w0 [] hlook, hd1] at hrun1
  dsimp only at hrun1
  rw [runCore_miss_cached hmiss hcache] at hrun1
  dsimp only at hrun1
  rw [runMany_nil] at hrun1
  rw [Prod.mk.injEq] at hrun1
  obtain ⟨hw1, -⟩ := hrun1
  obtain ⟨de₂, dc₂, h2e, h2c, h2er, h2cr⟩ :=
    runMany_delta exec sc g (task.depends_on.getD []) w1
  rw [hd2] at h2e h2c
  dsimp only at h2e h2c
  obtain ⟨de₁, dc₁, h1e, h1c, h1er, h1cr⟩ :=
    runMany_delta exec sc f (task.depends_on.getD []) w0
  rw [hd1] at h1e h1c
  dsimp only at h1e h1c
  have hfind : findRecord w1d.cacheRows name (hashInputs w1d.files task) =
      some ⟨w0d.nextId, name, hashInputs w0d.files task,
        (exec task.command w0d.files).1⟩ := by
    rw [hfp, h2c, ← hw1]
    dsimp only
    rw [findRecord] at hmiss ⊢
    rw [List.append_assoc, List.find?_append, hmiss]
    rw [List.find?_append]
    have hone : List.find?
        (fun r => r.task_name == name && r.inputs == hashInputs w0d.files task)
        [(⟨w0d.nextId, name, hashInputs w0d.files task,
          (exec task.command w0d.files).1⟩ : CacheRow)] =
        some ⟨w0d.nextId, name, hashInputs w0d.files task,
          (exec task.command w0d.files).1⟩ := by
      rw [List.find?_cons_of_pos]
      simp
    rw [hone]
    rfl
  rw [runMany_cons_succ exec sc g w1 [] hlook, hd2] at hrun2
  dsimp only at hrun2
  rw [runCore_hit hfind] at hrun2
  by_cases hfail : (restoreFromCache w1d.readOnly
      (outputsFor w1d.outputRows
        (⟨w0d.nextId, name, hashInputs w0d.files task,
          (exec task.command w0d.files).1⟩ : CacheRow).id)
      w1d.files).failed
  · rw [if_pos hfail] at hrun2
    dsimp only at hrun2
    rw [Prod.mk.injEq] at hrun2
    exact absurd hrun2.2 (by simp)
  · rw [if_neg hfail] at hrun2
    dsimp only at hrun2
    rw [runMany_nil] at hrun2
    rw [Prod.mk.injEq] at hrun2
    obtain ⟨hw2, -⟩ := hrun2
    refine ⟨?_, hfind, ?_, ?_⟩
    · rw [← hw2]
      dsimp only
      rw [h2e, ← hw1]
      dsimp only
      rw [h1e, List.append_assoc, List.append_assoc, List.filter_append,
        List.filter_append, List.filter_append]
      have hde₁ : de₁.filter (fun e => e.1 == name) = [] := by
        rw [List.filter_eq_nil_iff]
        intro x hx hbeq
        exact hnr (by
          have : x.1 = name := by simpa using hbeq
          exact this ▸ h1er x hx)
      have hde₂ : de₂.filter (fun e => e.1 == name) = [] := by
        rw [List.filter_eq_nil_iff]
        intro x hx hbeq
        exact hnr (by
          have : x.1 = name := by simpa using hbeq
          exact this ▸ h2er x hx)
      rw [hde₁, hde₂]
      simp
    · rw [← hw2]
    · rw [← hw2]

/-- C1 witness: a dependency-free cached task run twice on an unchanged
tree; the second run leaves the one-entry shell log alone. -/
theorem c1_witness :
    ((runMany (fun _ fs => ("out", fs)) [("t", { command := "c" })] 1
        (runMany (fun _ fs => ("out", fs)) [("t", { command := "c" })] 1
          ⟨[], [], [], [], 0, [], []⟩ ["t"]).1 ["t"]).1.execLog.filter
      (fun e => e.1 == "t")).length =
    ((⟨[], [], [], [], 0, [], []⟩ : World).execLog.filter
      (fun e => e.1 == "t")).length + 1 :=
  (c1_second_run_cached (fun _ fs => ("out", fs)) [("t", { command := "c" })]
    "t" ({ command := "c" }) 0 0 ⟨[], [], [], [], 0, [], []⟩
    ⟨[], [], [], [], 0, [], []⟩
    (runMany (fun _ fs => ("out", fs)) [("t", { command := "c" })] 1
      ⟨[], [], [], [], 0, [], []⟩ ["t"]).1
    (runMany (fun _ fs => ("out", fs)) [("t", { command := "c" })] 1
      ⟨[], [], [], [], 0, [], []⟩ ["t"]).1
    (runMany (fun _ fs => ("out", fs)) [("t", { command := "c" })] 1
      (runMany (fun _ fs => ("out", fs)) [("t", { command := "c" })] 1
        ⟨[], [], [], [], 0, [], []⟩ ["t"]).1 ["t"]).1
    (by decide) (by decide) (by decide) (by decide) (by decide) (by decide)
    (by decide) (by decide)).1

end TaskRunner
